import Mathlib

/-!
Verification of the lineapy dependency-graph and execution-context core.

This file is a shallow embedding of `lineapy/data/graph.py` and
`lineapy/execution/context.py`.  Python lists become `List`, dictionaries
become association lists with the same last-write-wins / insertion-order
semantics, raised exceptions become `Except` errors, and the `networkx`
primitives used by `graph.py` (`topological_sort`, `is_directed_acyclic_graph`,
`descendants`, `has_edge`, node/edge insertion) are implemented directly with
the standard algorithms (Kahn's scheme for the topological sort and the DAG
check, iterated successor closure for reachability), as the spec's design
notes prescribe for the graph-library dependency.

The node/session data model of `lineapy/data/types.py`, the helper
`get_arg_position` of `graph_reader/graph_helper.py`, and the
`GlobalsDict` / `is_mutable` / side-effect vocabulary of
`lineapy/execution/{globals_dict, inspect_function, side_effects}.py` are not
part of the sources; they are modelled from the spec where noted.
-/

namespace Linea

/-- Modelled from the spec: runtime values (`NodeValueType` of the missing
`types.py`).  A small closed universe of values suffices for the claims. -/
inductive Value where
  | vInt (n : Int)
  | vStr (s : String)
  | vBool (b : Bool)
  | vNone
deriving DecidableEq, Repr

/-- Modelled from the spec: the Read/Write direction tag of a
`StateChangeNode` (`StateDependencyType` of the missing `types.py`). -/
inductive StateDep where
  | read
  | write
deriving DecidableEq, Repr

/-- Modelled from the spec: which side-effect-bearing control construct a
node records (loop, condition or function definition). -/
inductive ControlKind where
  | loop
  | condition
  | functionDefinition
deriving DecidableEq, Repr

/-- Modelled from the spec: fields shared by every node variant — the unique
identifier, the owning session identifier, and the optional source line of
the node's source span (`lineno`; graph.py reads it when ordering the
call-node descendants of a data source). -/
structure NodeCommon where
  id : Nat
  sessionId : Nat
  lineno : Option Nat
deriving DecidableEq, Repr

/-- Modelled from the spec: the closed set of node variants of the missing
`types.py`, with exactly the payload fields §3 of the spec lists and
`graph.py` reads.  `call` carries the optional cached literal result; per the
spec a `stateChange` carries the associated node reference (Write) or the
initial-value node reference (Read) in its single `ref` field. -/
inductive NodeData where
  | call (functionName : String) (functionModule : Option Nat)
      (locallyDefinedFunctionId : Option Nat) (arguments : List Nat)
      (assignedVariableName : Option String) (value : Option Value)
  | argument (keyword : Option String) (positionalOrder : Option Nat)
      (valueLiteral : Option Value) (valueNodeId : Option Nat)
  | importNode (libraryName : String) (aliasName : Option String)
      (module : Option Value)
  | variableNode (sourceVariableId : Nat)
  | dataSource (accessPath : String)
  | stateChange (dep : StateDep) (ref : Nat)
  | control (kind : ControlKind) (importNodes : Option (List Nat))
      (inputStateChangeNodes : Option (List Nat))
deriving DecidableEq, Repr

/-- A node: common fields plus the variant payload. -/
structure Node where
  common : NodeCommon
  data : NodeData
deriving DecidableEq, Repr

/-- Modelled from the spec: the session descriptor of the missing
`types.py` — identifier, environment kind, creation time, file name, full
source text, optional name, libraries.  Immutable once attached. -/
structure SessionContext where
  id : Nat
  environmentType : Nat
  creationTime : Nat
  fileName : String
  code : String
  sessionName : Option String
  libraries : List String
deriving DecidableEq, Repr

/-- The exceptions the embedded code can raise.  `internalLogic` is the
structural-integrity error of a cyclic graph ("Graph should not be cyclic");
`nullValue` is the strict-lookup not-found error carrying the missing id;
`attributeErr` models a Python `AttributeError` (attribute access on `None`
or on a variant lacking the field); `typeErr` models the `TypeError` raised
when `sort` compares a `None` key; `keyErr` models a dictionary `KeyError`;
`ctxAlreadySet` and `ctxNotSet` are the two lifecycle `RuntimeError`s of
`context.py`; `assertionErr` is the non-empty-managed-environment assert;
`fuelOut` is the embedding's recursion sentinel, unreachable on graphs
produced by construction. -/
inductive PyErr where
  | internalLogic
  | nullValue (missing : Nat)
  | attributeErr
  | typeErr
  | keyErr
  | ctxAlreadySet
  | ctxNotSet
  | assertionErr
  | fuelOut
deriving DecidableEq, Repr

/-- `Graph.get_parents_from_node`: the source nodes contributing inbound
edges of one node, in the order the Python code appends them. -/
def getParentsFromNode (n : Node) : List Nat :=
  match n.data with
  | .call _ fm ldf args _ _ => args ++ fm.toList ++ ldf.toList
  | .argument _ _ _ vref => vref.toList
  | .importNode _ _ _ => []
  | .variableNode src => [src]
  | .dataSource _ => []
  | .stateChange _ ref => [ref]
  | .control _ imps scs => imps.getD [] ++ scs.getD []

/-- `Graph.__get_edges_from_nodes`: every derived node-reference edge
(parent, child), per node in list order. -/
def refEdges (nodes : List Node) : List (Nat × Nat) :=
  nodes.flatMap (fun n => (getParentsFromNode n).map (fun p => (p, n.common.id)))

/-- Insert a vertex if not already present (networkx node insertion is
idempotent and keeps first-insertion order). -/
def insertNew (l : List Nat) (x : Nat) : List Nat :=
  if x ∈ l then l else l ++ [x]

/-- Insert many vertices in order. -/
def addAll (l : List Nat) (xs : List Nat) : List Nat :=
  xs.foldl insertNew l

/-- The vertex set of the networkx digraph after `add_nodes_from` of the
node ids and `add_edges_from` of the given edges (edge endpoints missing
from the graph are inserted as fresh vertices). -/
def buildVertices (ids : List Nat) (edges : List (Nat × Nat)) : List Nat :=
  addAll (addAll [] ids) (edges.flatMap (fun e => [e.1, e.2]))

/-- The `_ids` dictionary lookup: Python's dict comprehension lets a later
node with a duplicated id overwrite an earlier one, hence the reversed
search. -/
def lookupNode (nodes : List Node) (i : Nat) : Option Node :=
  nodes.reverse.find? (fun n => n.common.id == i)

/-- Whether vertex `v` has an incoming edge whose source is still in `rem`. -/
def hasIncoming (edges : List (Nat × Nat)) (rem : List Nat) (v : Nat) : Bool :=
  edges.any (fun e => e.2 == v && rem.contains e.1)

/-- Kahn's algorithm, fuelled by the number of remaining vertices: pick the
first remaining vertex with no incoming edge from the rest, output it,
recurse; `none` when stuck on a non-empty remainder (a cycle). -/
def kahnAux (edges : List (Nat × Nat)) : Nat → List Nat → Option (List Nat)
  | 0, rem => if rem.isEmpty then some [] else none
  | fuel + 1, rem =>
    match rem.find? (fun v => !hasIncoming edges rem v) with
    | none => if rem.isEmpty then some [] else none
    | some v => (kahnAux edges fuel (rem.erase v)).map (fun order => v :: order)

/-- `nx.topological_sort` / `nx.is_directed_acyclic_graph`: a topological
order of the vertices when one exists, `none` on a cyclic graph. -/
def kahn (edges : List (Nat × Nat)) (verts : List Nat) : Option (List Nat) :=
  kahnAux edges verts.length verts

/-- Direct successors of a vertex. -/
def succsOf (edges : List (Nat × Nat)) (v : Nat) : List Nat :=
  (edges.filter (fun e => e.1 == v)).map (fun e => e.2)

/-- One saturation step of the forward-reachability closure. -/
def stepClosure (edges : List (Nat × Nat)) (cur : List Nat) : List Nat :=
  cur.foldl (fun acc v => addAll acc (succsOf edges v)) cur

/-- `nx.descendants`: every vertex reachable from `v`, excluding `v`
itself.  Iterating the monotone saturation step as many times as the graph
has vertices reaches the fixed point, since each non-final step adds a
vertex. -/
def descendantsOf (edges : List (Nat × Nat)) (fuel : Nat) (v : Nat) : List Nat :=
  ((fun l => stepClosure edges l)^[fuel] [v]).filter (fun x => x != v)

/-- `get_node_else_raise` restricted to construction time (id known). -/
def getNodeElseRaise (nodes : List Node) (i : Nat) : Except PyErr Node :=
  match lookupNode nodes i with
  | some n => .ok n
  | none => .error (.nullValue i)

/-- Whether a node is a `CallNode`. -/
def isCallNode (n : Node) : Bool :=
  match n.data with
  | .call _ _ _ _ _ _ => true
  | _ => false

/-- The list-comprehension filter of `__get_edges_from_line_number`: keep the
descendants that resolve (raising the not-found error otherwise) to
`CallNode`s. -/
def filterCalls (nodes : List Node) : List Nat → Except PyErr (List Nat)
  | [] => .ok []
  | i :: rest => do
    let n ← getNodeElseRaise nodes i
    let tail ← filterCalls nodes rest
    if isCallNode n then pure (i :: tail) else pure tail

/-- The sort keys: each id paired with its node's `lineno`. -/
def linenoPairs (nodes : List Node) : List Nat → Except PyErr (List (Nat × Option Nat))
  | [] => .ok []
  | i :: rest => do
    let n ← getNodeElseRaise nodes i
    let tail ← linenoPairs nodes rest
    pure ((i, n.common.lineno) :: tail)

/-- `descendants.sort(key=lambda n: ...lineno)`: a singleton or empty list
sorts without comparing keys; otherwise Python's stable sort compares every
key, raising `TypeError` if any is `None`.  Insertion sort is stable, so it
agrees with Python's stable sort on the same integer keys. -/
def sortIdsByLineno (nodes : List Node) (ids : List Nat) : Except PyErr (List Nat) := do
  let pairs ← linenoPairs nodes ids
  if pairs.length ≤ 1 then pure ids
  else if pairs.all (fun p => p.2.isSome) then
    pure ((List.insertionSort (fun p q => p.2.getD 0 ≤ q.2.getD 0) pairs).map (fun p => p.1))
  else .error .typeErr

/-- The consecutive-pair loop of `__get_edges_from_line_number`: one new edge
per consecutive pair of the sorted list, skipped when an edge between the two
already exists in either direction. -/
def pairsToAdd (edges : List (Nat × Nat)) : List Nat → List (Nat × Nat)
  | a :: b :: rest =>
    (if (a, b) ∈ edges ∨ (b, a) ∈ edges then [] else [(a, b)]) ++
      pairsToAdd edges (b :: rest)
  | _ => []

/-- The line-number edges contributed by one `DataSourceNode`. -/
def lineEdgesForDs (nodes : List Node) (fuel : Nat) (edges : List (Nat × Nat))
    (dsId : Nat) : Except PyErr (List (Nat × Nat)) := do
  let calls ← filterCalls nodes (descendantsOf edges fuel dsId)
  let sorted ← sortIdsByLineno nodes calls
  pure (pairsToAdd edges sorted)

/-- Whether a node is a `DataSourceNode`. -/
def isDataSourceNode (n : Node) : Bool :=
  match n.data with
  | .dataSource _ => true
  | _ => false

/-- `Graph.__get_edges_from_line_number`: iterate the node list; for each
data source node, contribute its consecutive-pair line-number edges.  The
whole list is computed against the reference edges only — the Python code
builds the full list before adding any of it to the graph. -/
def lineEdgesAux (nodes : List Node) (fuel : Nat) (edges : List (Nat × Nat)) :
    List Node → Except PyErr (List (Nat × Nat))
  | [] => .ok []
  | n :: rest =>
    if isDataSourceNode n then do
      let here ← lineEdgesForDs nodes fuel edges n.common.id
      let there ← lineEdgesAux nodes fuel edges rest
      pure (here ++ there)
    else lineEdgesAux nodes fuel edges rest

/-- All line-number ordering edges of a node list, derived against its
reference edges; the closure fuel is the vertex count of the
reference-edge digraph, enough to reach the reachability fixed point. -/
def lineEdges (nodes : List Node) : Except PyErr (List (Nat × Nat)) :=
  lineEdgesAux nodes
    (buildVertices (nodes.map (fun n => n.common.id)) (refEdges nodes)).length
    (refEdges nodes) nodes

/-- The full derived edge set: node-reference edges then line-number
ordering edges, in insertion order. -/
def derivedEdges (nodes : List Node) : Except PyErr (List (Nat × Nat)) := do
  let lineE ← lineEdges nodes
  pure (refEdges nodes ++ lineE)

/-- A validated graph: the node list, the session context, and the vertex
and edge lists of the underlying digraph. -/
structure Graph where
  nodes : List Node
  sessionContext : SessionContext
  vertices : List Nat
  edges : List (Nat × Nat)
deriving DecidableEq, Repr

/-- `Graph.__init__`: index the nodes, derive reference edges, derive
line-number edges against them, then validate acyclicity of the assembled
digraph, failing with the structural-integrity error on a cycle.  The error
is returned instead of a `Graph`, so no query can be answered on a failed
construction. -/
def mkGraph (nodes : List Node) (sc : SessionContext) : Except PyErr Graph :=
  match lineEdges nodes with
  | .error e => .error e
  | .ok lineE =>
    if (kahn (refEdges nodes ++ lineE)
          (addAll (buildVertices (nodes.map (fun n => n.common.id)) (refEdges nodes))
            (lineE.flatMap (fun e => [e.1, e.2])))).isSome
    then .ok ⟨nodes, sc,
           addAll (buildVertices (nodes.map (fun n => n.common.id)) (refEdges nodes))
             (lineE.flatMap (fun e => [e.1, e.2])),
           refEdges nodes ++ lineE⟩
    else .error .internalLogic

/-- `Graph.visit_order`: the topological order of the validated digraph
(total on constructed graphs, where `kahn` cannot fail). -/
def Graph.visitOrder (g : Graph) : List Nat :=
  (kahn g.edges g.vertices).getD []

/-- The position of a vertex in an ordering (its index, `length` when
absent). -/
def posIn (l : List Nat) (x : Nat) : Nat :=
  match l with
  | [] => 0
  | a :: rest => if a = x then 0 else posIn rest x + 1

/-- `get_node`: a lenient lookup, `none` on a missing or absent id. -/
def getNode (g : Graph) (i : Option Nat) : Option Node :=
  match i with
  | none => none
  | some i => lookupNode g.nodes i

/-- A single warning printed by `get_node_value` ("WARNING: Could not find
source node from id."). -/
inductive Warning where
  | sourceNotFound
deriving DecidableEq, Repr

/-- The `.value` attribute read by `get_node_value` (`return source.value` /
`return node.value`).  Modelled from the spec: `types.py` is missing, and §3
gives a stored value only to `call` (the optional cached literal result); on
`None` or on a variant without the field the access raises
`AttributeError`. -/
def valueAttrOf (s : Option Node) : Except PyErr (Option Value) :=
  match s with
  | none => .error .attributeErr
  | some n =>
    match n.data with
    | .call _ _ _ _ _ v => .ok v
    | _ => .error .attributeErr

/-- The while loop of the `VariableNode` branch of `get_node_value`: follow
`source_variable_id` while the current source is present and is itself a
`VariableNode`.  Fuelled; the fuel sentinel is unreachable on acyclic
graphs. -/
def aliasLoop (g : Graph) : Nat → Option Node → Except PyErr (Option Node)
  | 0, _ => .error .fuelOut
  | fuel + 1, s =>
    match s with
    | none => .ok none
    | some n =>
      match n.data with
      | .variableNode src => aliasLoop g fuel (getNode g (some src))
      | _ => .ok (some n)

/-- `Graph.get_node_value`, with the printed warnings made explicit in the
result.  For a `VariableNode` it resolves the alias chain and reads the
terminal's `.value` attribute; for an `ArgumentNode` it prefers the literal,
else recursively resolves the value reference, else `None`; a
`DataSourceNode` yields its access path, an `ImportNode` its module value,
and every other variant its own stored value. -/
def getNodeValueAux (g : Graph) : Nat → Option Node → Except PyErr (Option Value × List Warning)
  | _, none => .ok (none, [])
  | 0, some _ => .error .fuelOut
  | fuel + 1, some node =>
    match node.data with
    | .variableNode srcId =>
      match getNode g (some srcId) with
      | none => .ok (none, [.sourceNotFound])
      | some source =>
        match source.data with
        | .variableNode _ =>
          match aliasLoop g fuel (some source) with
          | .error e => .error e
          | .ok s => (valueAttrOf s).map (fun v => (v, []))
        | _ => (valueAttrOf (some source)).map (fun v => (v, []))
    | .argument _ _ lit vref =>
      match lit with
      | some v => .ok (some v, [])
      | none =>
        match vref with
        | some rid => getNodeValueAux g fuel (getNode g (some rid))
        | none => .ok (none, [])
    | .dataSource path => .ok (some (.vStr path), [])
    | .importNode _ _ module => .ok (module, [])
    | _ => (valueAttrOf (some node)).map (fun v => (v, []))

/-- Canonical fuel for value resolution: on an acyclic graph no alias chain
or argument-reference chain revisits a node, so one unit per node plus one
suffices. -/
def Graph.gFuel (g : Graph) : Nat :=
  g.nodes.length + 1

/-- `Graph.get_node_value` as called by clients. -/
def Graph.getNodeValue (g : Graph) (n : Option Node) : Except PyErr (Option Value × List Warning) :=
  getNodeValueAux g g.gFuel n

/-- `get_node_value` with the printed warnings dropped: just the value or
the raised error. -/
def getValueOnly (g : Graph) (n : Option Node) : Except PyErr (Option Value) :=
  (g.getNodeValue n).map (fun p => p.1)

/-- Insertion-ordered dictionary assignment: an existing key keeps its
position and takes the new value, a fresh key is appended. -/
def dictInsert (d : List (String × Option Value)) (k : String) (v : Option Value) :
    List (String × Option Value) :=
  if d.any (fun p => p.1 == k) then
    d.map (fun p => if p.1 == k then (k, v) else p)
  else d ++ [(k, v)]

/-- The `keyword` field of an argument node (`AttributeError` on any other
variant, as the unchecked Python cast would produce). -/
def argKeyword (n : Node) : Except PyErr (Option String) :=
  match n.data with
  | .argument kw _ _ _ => .ok kw
  | _ => .error .attributeErr

/-- The accumulation loop of `get_arguments_from_call_node`: look every
argument id up strictly, route keyword arguments into the dictionary with
their resolved value and the rest into the positional list, in iteration
order. -/
def collectArgs (g : Graph) : List Nat → List Node → List (String × Option Value) →
    Except PyErr (List Node × List (String × Option Value))
  | [], accPos, accKw => .ok (accPos, accKw)
  | i :: rest, accPos, accKw => do
    let n ← getNodeElseRaise g.nodes i
    match ← argKeyword n with
    | some k => do
      let v ← getValueOnly g (some n)
      collectArgs g rest accPos (dictInsert accKw k v)
    | none => collectArgs g rest (accPos ++ [n]) accKw

/-- The `positional_order` field of an argument node. -/
def argPosition (n : Node) : Option Nat :=
  match n.data with
  | .argument _ pos _ _ => pos
  | _ => none

/-- `arg_nodes.sort(key=get_arg_position)`, with `get_arg_position` modelled
from the spec (the helper module is missing): the key is the argument's
positional index.  As with the lineno sort, a short list needs no
comparison, and a `None` key among two or more raises `TypeError`. -/
def sortArgsByPosition (args : List Node) : Except PyErr (List Node) :=
  if args.length ≤ 1 then .ok args
  else if args.all (fun a => (argPosition a).isSome) then
    .ok (List.insertionSort
      (fun a b => (argPosition a).getD 0 ≤ (argPosition b).getD 0) args)
  else .error .typeErr

/-- The final comprehension: resolve each sorted positional argument to its
value. -/
def mapValues (g : Graph) : List Node → Except PyErr (List (Option Value))
  | [] => .ok []
  | a :: rest => do
    let v ← getValueOnly g (some a)
    let tail ← mapValues g rest
    pure (v :: tail)

/-- `Graph.get_arguments_from_call_node`: positional values ordered by
positional index, plus the keyword-name-to-value dictionary. -/
def getArgumentsFromCallNode (g : Graph) (node : Node) :
    Except PyErr (List (Option Value) × List (String × Option Value)) :=
  match node.data with
  | .call _ _ _ args _ _ => do
    let (argNodes, kwargs) ← collectArgs g args [] []
    let sorted ← sortArgsByPosition argNodes
    let vals ← mapValues g sorted
    pure (vals, kwargs)
  | _ => .error .attributeErr

/-- Whether `m : List (Nat × Nat)` is an edge-preserving vertex bijection
between two digraphs given as vertex/edge lists. -/
def isIsoMap (v1 : List Nat) (e1 : List (Nat × Nat)) (e2 : List (Nat × Nat))
    (m : List (Nat × Nat)) : Bool :=
  v1.all (fun u => v1.all (fun v =>
    decide ((u, v) ∈ e1) ==
      decide (((m.lookup u).getD u, (m.lookup v).getD v) ∈ e2)))

/-- All ways to insert an element into a list. -/
def insertsOf {α : Type} (x : α) : List α → List (List α)
  | [] => [[x]]
  | y :: ys => (x :: y :: ys) :: (insertsOf x ys).map (fun l => y :: l)

/-- All permutations of a list, by structural recursion. -/
def permsOf {α : Type} : List α → List (List α)
  | [] => [[]]
  | x :: xs => (permsOf xs).flatMap (insertsOf x)

/-- `nx.is_isomorphic` on the underlying digraphs: a brute-force search for
an edge-preserving bijection between the vertex lists (constructed vertex
lists carry no duplicates, so pairing against each permutation enumerates
the bijections). -/
def isIsomorphic (v1 : List Nat) (e1 : List (Nat × Nat)) (v2 : List Nat)
    (e2 : List (Nat × Nat)) : Bool :=
  v1.length == v2.length &&
    (permsOf v2).any (fun p => isIsoMap v1 e1 e2 (v1.zip p))

/-- `Graph.__eq__`: equality of two graphs is isomorphism of their
digraphs — the node payloads, ids and session contexts play no part. -/
def graphEq (g1 g2 : Graph) : Bool :=
  isIsomorphic g1.vertices g1.edges g2.vertices g2.edges

/-- Modelled from the spec: an executor pointer of the missing
`side_effects.py` — a reference by existing node id, or by variable name. -/
inductive ExecutorPointer where
  | byId (id : Nat)
  | byVar (name : String)
deriving DecidableEq, Repr

/-- Modelled from the spec: the side-effect records of the missing
`side_effects.py` — accessed globals (read names, added-or-updated names),
a mutated node, or a view group of pointers. -/
inductive SideEffect where
  | accessedGlobals (retrieved : List String) (addedOrUpdated : List String)
  | mutatedNode (pointer : ExecutorPointer)
  | viewOfNodes (pointers : List ExecutorPointer)
deriving DecidableEq, Repr

/-- Whether a side effect is a mutated-node record. -/
def isMutatedRecord (se : SideEffect) : Bool :=
  match se with
  | .mutatedNode _ => true
  | _ => false

/-- Whether a side effect is a view-group record. -/
def isViewRecord (se : SideEffect) : Bool :=
  match se with
  | .viewOfNodes _ => true
  | _ => false

/-- Modelled from the spec: the call node as `context.py` sees it — its id
and its recorded global-read name-to-node-id mapping. -/
structure ContextCallNode where
  id : Nat
  globalReads : List (String × Nat)
deriving DecidableEq, Repr

/-- Modelled from the spec: the executor's id-to-current-value mapping
(`executor._id_to_value`). -/
structure Executor where
  idToValue : List (Nat × Value)
deriving DecidableEq, Repr

/-- The `ExecutionContext` dataclass: the node being executed, the input
name-to-node-id mapping, the is-input-mutable classification snapshotted at
activation, and side effects pushed during execution. -/
structure ExecutionContext where
  node : ContextCallNode
  inputNodeIds : List (String × Nat)
  inputGlobalsMutable : List (String × Bool)
  sideEffects : List SideEffect
deriving DecidableEq, Repr

/-- Modelled from the spec: the result of `GlobalsDict.teardown_globals`
(the module is missing) — the names accessed without modification, and the
added-or-modified name-to-value mapping of the managed environment. -/
structure GlobalsDictResult where
  accessedInputs : List String
  addedOrModified : List (String × Value)
deriving DecidableEq, Repr

/-- The process-wide state of `context.py`: the optional active context and
the managed `GlobalsDict` (modelled by its input bindings, `none` when the
dictionary is empty, i.e. before the first setup or after a teardown). -/
structure CtxState where
  current : Option ExecutionContext
  globals? : Option (List (String × Value))
deriving DecidableEq, Repr

/-- The idle state. -/
def CtxState.idle : CtxState :=
  ⟨none, none⟩

/-- Association-list lookup (Python dictionary read, first match; the
dictionaries involved never carry duplicate keys). -/
def alookup {α : Type} (l : List (Nat × α)) (k : Nat) : Option α :=
  (l.find? (fun p => p.1 == k)).map (fun p => p.2)

/-- String-keyed association-list lookup. -/
def slookup {α : Type} (l : List (String × α)) (k : String) : Option α :=
  (l.find? (fun p => p.1 == k)).map (fun p => p.2)

/-- Resolve every input node id through the executor
(`executor._id_to_value[id_]`), `KeyError` when one is missing. -/
def resolveInputs (ex : Executor) : List (String × Nat) → Except PyErr (List (String × Value))
  | [] => .ok []
  | (name, i) :: rest =>
    match alookup ex.idToValue i with
    | none => .error .keyErr
    | some v => do
      let tail ← resolveInputs ex rest
      pure ((name, v) :: tail)

/-- `variables or node.global_reads`: Python's `or` falls through on a
missing or empty caller-supplied mapping. -/
def chooseInputIds (varsOpt : Option (List (String × Nat))) (node : ContextCallNode) :
    List (String × Nat) :=
  match varsOpt with
  | some vs => if vs.isEmpty then node.globalReads else vs
  | none => node.globalReads

/-- `set_context`: fails on an already-active context, asserts the managed
environment is empty, chooses the input mapping (the caller-supplied one
when non-empty — Python's `or` also rejects an empty dictionary — else the
node's recorded global reads), snapshots the inputs through the executor,
classifies each snapshot with the mutability oracle `isMut` (the missing
`is_mutable`), and activates the context. -/
def setContext (isMut : Value → Bool) (ex : Executor)
    (varsOpt : Option (List (String × Nat))) (node : ContextCallNode)
    (s : CtxState) : Except PyErr CtxState :=
  if s.current.isSome then .error .ctxAlreadySet
  else if s.globals?.isSome then .error .assertionErr
  else
    match resolveInputs ex (chooseInputIds varsOpt node) with
    | .error e => .error e
    | .ok inputGlobals =>
      .ok ⟨some ⟨node, chooseInputIds varsOpt node,
            inputGlobals.map (fun p => (p.1, isMut p.2)), []⟩,
          some inputGlobals⟩

/-- `get_context`: the active context, or the no-active-context error. -/
def getContext (s : CtxState) : Except PyErr ExecutionContext :=
  match s.current with
  | none => .error .ctxNotSet
  | some c => .ok c

/-- The mutable-input comprehension of `_compute_side_effects`: one id
pointer per accessed input name whose snapshotted value was classified
mutable, in access order (`KeyError` on a name outside the recorded
mappings, as the dictionary subscripts would raise). -/
def mutableInputs (ctx : ExecutionContext) : List String → Except PyErr (List ExecutorPointer)
  | [] => .ok []
  | name :: rest =>
    match slookup ctx.inputGlobalsMutable name with
    | none => .error .keyErr
    | some m =>
      if m then
        match slookup ctx.inputNodeIds name with
        | none => .error .keyErr
        | some i => do
          let tail ← mutableInputs ctx rest
          pure (.byId i :: tail)
      else mutableInputs ctx rest

/-- `_compute_side_effects`: the accessed-globals record when any name was
read or added, one mutated-node record per mutable accessed input, and —
when the concatenated list of mutable input pointers and mutable output
variables has more than one entry — a single trailing view group of exactly
that list. -/
def computeSideEffects (isMut : Value → Bool) (ctx : ExecutionContext)
    (res : GlobalsDictResult) : Except PyErr (List SideEffect) := do
  let minputs ← mutableInputs ctx res.accessedInputs
  let agList :=
    if res.addedOrModified.isEmpty && res.accessedInputs.isEmpty then []
    else [SideEffect.accessedGlobals res.accessedInputs
            (res.addedOrModified.map (fun p => p.1))]
  let moutputs := (res.addedOrModified.filter (fun p => isMut p.2)).map
    (fun p => ExecutorPointer.byVar p.1)
  let candidates := minputs ++ moutputs
  let vgList :=
    if candidates.length > 1 then [SideEffect.viewOfNodes candidates] else []
  pure (agList ++ minputs.map SideEffect.mutatedNode ++ vgList)

/-- The value returned by `teardown_context`: the added-or-modified bindings
and the full ordered side-effect list. -/
structure ContextResult where
  addedOrModified : List (String × Value)
  sideEffects : List SideEffect
deriving DecidableEq, Repr

/-- `teardown_context`: fails when idle; otherwise tears the managed
environment down (its diff `res` is the record of what the wrapped
execution did, supplied by the environment), clears the context, and
returns the added-or-modified bindings together with the side effects
pushed during execution followed by the inferred ones. -/
def teardownContext (isMut : Value → Bool) (s : CtxState) (res : GlobalsDictResult) :
    Except PyErr (ContextResult × CtxState) :=
  match s.current with
  | none => .error .ctxNotSet
  | some ctx => do
    let inferred ← computeSideEffects isMut ctx res
    pure (⟨res.addedOrModified, ctx.sideEffects ++ inferred⟩, CtxState.idle)

/-- The step relation of the derived edge list. -/
def EdgeRel (edges : List (Nat × Nat)) (u v : Nat) : Prop :=
  (u, v) ∈ edges

/-- Acyclicity of an edge list: no vertex reaches itself through a
non-empty chain of edges. -/
def Acyclic (edges : List (Nat × Nat)) : Prop :=
  ∀ u, ¬ Relation.TransGen (EdgeRel edges) u u

/-- An alias chain: each listed node is a `VariableNode` whose source
reference is the id of the next listed node, the last referencing the
terminal `t`. -/
def chainLinked (t : Node) : List Node → Prop
  | [] => True
  | v :: rest => v.data = .variableNode ((rest.headD t).common.id) ∧ chainLinked t rest

/-- Whether a node is a `VariableNode`. -/
def isVariableNode (n : Node) : Bool :=
  match n.data with
  | .variableNode _ => true
  | _ => false

/-! ### Concrete node sets used as test inputs for the claims -/

/-- A session context for the concrete examples. -/
def scA : SessionContext :=
  ⟨0, 0, 0, "a.py", "x = 1", none, []⟩

/-- A second, entirely different session context. -/
def scB : SessionContext :=
  ⟨9, 2, 77, "b.py", "y = f()", some "other", ["pandas"]⟩

/-- A Write `StateChangeNode` referencing node 2. -/
def wNode : Node := ⟨⟨1, 0, none⟩, .stateChange .write 2⟩

/-- A Read `StateChangeNode` referencing node 1, closing the cycle. -/
def rNode : Node := ⟨⟨2, 0, none⟩, .stateChange .read 1⟩

/-- A value-bearing call node, terminal of the alias-chain examples. -/
def valNode : Node := ⟨⟨10, 0, none⟩, .call "f" none none [] none (some (.vInt 42))⟩

/-- A variable node aliasing the terminal. -/
def aliasTail : Node := ⟨⟨11, 0, none⟩, .variableNode 10⟩

/-- A variable node aliasing `aliasTail`, head of a two-link chain. -/
def aliasHead : Node := ⟨⟨12, 0, none⟩, .variableNode 11⟩

/-- A variable node whose source id 99 resolves to nothing. -/
def brokenTail : Node := ⟨⟨11, 0, none⟩, .variableNode 99⟩

/-- A variable node directly referencing the missing id 99. -/
def brokenHead : Node := ⟨⟨12, 0, none⟩, .variableNode 99⟩

/-- Argument at positional index 1 with literal value 5. -/
def argPos1 : Node := ⟨⟨1, 0, none⟩, .argument none (some 1) (some (.vInt 5)) none⟩

/-- Argument at positional index 0 with literal value 7. -/
def argPos0 : Node := ⟨⟨2, 0, none⟩, .argument none (some 0) (some (.vInt 7)) none⟩

/-- Keyword argument "b" with literal value 1. -/
def argKw : Node := ⟨⟨3, 0, none⟩, .argument (some "b") none (some (.vInt 1)) none⟩

/-- The call whose arguments are the three above. -/
def callAbc : Node := ⟨⟨10, 0, none⟩, .call "f" none none [1, 2, 3] none none⟩

/-- The line-number example: data source 1, two argument nodes referencing
it, and two call nodes at source lines 3 and 5. -/
def dsrc : Node := ⟨⟨1, 0, some 1⟩, .dataSource "data.csv"⟩

/-- Argument node feeding the data source into the line-3 call. -/
def argA : Node := ⟨⟨2, 0, some 3⟩, .argument none (some 0) none (some 1)⟩

/-- The call at line 3. -/
def callLine3 : Node := ⟨⟨3, 0, some 3⟩, .call "read" none none [2] none none⟩

/-- Argument node feeding the data source into the line-5 call. -/
def argB : Node := ⟨⟨4, 0, some 5⟩, .argument none (some 0) none (some 1)⟩

/-- The call at line 5. -/
def callLine5 : Node := ⟨⟨5, 0, some 5⟩, .call "write" none none [4] none none⟩

/-- The node set of the first line-number scenario (no prior edge between
the two calls). -/
def lineNodes : List Node := [dsrc, argA, callLine3, argB, callLine5]

/-- The line-3 call with a direct reference to the line-5 call, creating a
prior reverse edge between the pair. -/
def callLine3R : Node := ⟨⟨3, 0, some 3⟩, .call "read" none none [2, 5] none none⟩

/-- The node set of the second scenario (a prior reverse edge exists). -/
def lineNodesR : List Node := [dsrc, argA, callLine3R, argB, callLine5]

/-- Graph one of the equality example: a data source aliased by a variable
node — two vertices joined by one edge. -/
def isoNodes1 : List Node :=
  [⟨⟨10, 0, none⟩, .dataSource "a.csv"⟩, ⟨⟨11, 0, none⟩, .variableNode 10⟩]

/-- Graph two of the equality example: disjoint ids, different variants and
payloads, same shape — an import feeding an argument node. -/
def isoNodes2 : List Node :=
  [⟨⟨20, 1, some 4⟩, .importNode "m" (some "mm") (some .vNone)⟩,
   ⟨⟨21, 1, some 4⟩, .argument none none none (some 20)⟩]

/-- A structurally different third graph: two isolated data sources. -/
def isoNodes3 : List Node :=
  [⟨⟨30, 0, none⟩, .dataSource "x"⟩, ⟨⟨31, 0, none⟩, .dataSource "y"⟩]

/-- The `keyword` field of an argument node, `none` on other variants
(used only to state properties). -/
def keywordOf (n : Node) : Option String :=
  match n.data with
  | .argument kw _ _ _ => kw
  | _ => none

/-- Whether a node is an `ArgumentNode`. -/
def isArgumentNode (n : Node) : Bool :=
  match n.data with
  | .argument _ _ _ _ => true
  | _ => false

/-- The positional (keyword-less) members of an argument-node list, in
order. -/
def posArgsOf (anodes : List Node) : List Node :=
  anodes.filter (fun a => (keywordOf a).isNone)

/-- The keyword members of an argument-node list, in order. -/
def kwArgsOf (anodes : List Node) : List Node :=
  anodes.filter (fun a => (keywordOf a).isSome)

/-- The keyword names of an argument-node list, in order. -/
def kwNamesOf (anodes : List Node) : List String :=
  anodes.filterMap keywordOf

/-- The graph constructed from the two-link alias chain (the value of
`mkGraph [valNode, aliasTail, aliasHead] scA`). -/
def chainGraph : Graph :=
  ⟨[valNode, aliasTail, aliasHead], scA, [10, 11, 12], [(10, 11), (11, 12)]⟩

/-- The graph of the argument-partitioning example (the value of
`mkGraph [argPos1, argPos0, argKw, callAbc] scA`). -/
def argGraph : Graph :=
  ⟨[argPos1, argPos0, argKw, callAbc], scA, [1, 2, 3, 10], [(1, 10), (2, 10), (3, 10)]⟩

/-- The executor of the context examples: node 7 holds a string, node 8 an
integer. -/
def exeA : Executor := ⟨[(7, .vStr "frame"), (8, .vInt 3)]⟩

/-- The call node wrapped by the context examples. -/
def ctxNode : ContextCallNode := ⟨100, []⟩

/-- A mutability oracle for the examples: strings mutable, the rest not. -/
def mutStr : Value → Bool
  | .vStr _ => true
  | _ => false

/-- An active context state (the value of
`setContext mutStr exeA (some [("x", 7)]) ctxNode CtxState.idle`). -/
def ctxActive : CtxState :=
  ⟨some ⟨ctxNode, [("x", 7)], [("x", true)], []⟩, some [("x", .vStr "frame")]⟩

/-- The graph of `isoNodes1` under `scA`. -/
def isoGraph1 : Graph := ⟨isoNodes1, scA, [10, 11], [(10, 11)]⟩

/-- The graph of `isoNodes2` under `scB`. -/
def isoGraph2 : Graph := ⟨isoNodes2, scB, [20, 21], [(20, 21)]⟩

/-- The graph of `isoNodes3` under `scA`. -/
def isoGraph3 : Graph := ⟨isoNodes3, scA, [30, 31], []⟩

/-! ### Basic facts about the vertex-insertion helpers and lookups -/

theorem mem_insertNew {l : List Nat} {x y : Nat} :
    y ∈ insertNew l x ↔ y ∈ l ∨ y = x := by
  unfold insertNew
  split
  · next h =>
    constructor
    · exact Or.inl
    · rintro (hy | rfl)
      · exact hy
      · exact h
  · simp [List.mem_append]

theorem mem_addAll {xs : List Nat} : ∀ {l y}, y ∈ addAll l xs ↔ y ∈ l ∨ y ∈ xs := by
  induction xs with
  | nil => simp [addAll]
  | cons x xs ih =>
    intro l y
    show y ∈ addAll (insertNew l x) xs ↔ _
    rw [ih, mem_insertNew]
    simp [or_assoc, List.mem_cons]

theorem addAll_eq_of_subset {xs : List Nat} : ∀ {l}, (∀ x ∈ xs, x ∈ l) → addAll l xs = l := by
  induction xs with
  | nil => intro l _; rfl
  | cons x xs ih =>
    intro l h
    show addAll (insertNew l x) xs = l
    have hx : insertNew l x = l := by
      unfold insertNew
      simp [h x (by simp)]
    rw [hx]
    exact ih (fun y hy => h y (by simp [hy]))

theorem addAll_eq_append {xs : List Nat} : ∀ {l}, xs.Nodup → (∀ x ∈ xs, x ∉ l) →
    addAll l xs = l ++ xs := by
  induction xs with
  | nil => intro l _ _; simp [addAll]
  | cons x xs ih =>
    intro l hnd hdis
    show addAll (insertNew l x) xs = _
    have hx : insertNew l x = l ++ [x] := by
      unfold insertNew
      simp [hdis x (by simp)]
    rw [hx, ih hnd.of_cons]
    · simp
    · intro y hy
      simp only [List.mem_append, List.mem_singleton]
      rintro (hl | rfl)
      · exact hdis y (by simp [hy]) hl
      · exact (List.nodup_cons.mp hnd).1 hy

theorem addAll_nil_eq {xs : List Nat} (h : xs.Nodup) : addAll [] xs = xs := by
  have := @addAll_eq_append xs [] h (by simp)
  simpa using this

theorem lookupNode_eq_some {nodes : List Node} {i : Nat} {n : Node}
    (h : lookupNode nodes i = some n) : n ∈ nodes ∧ n.common.id = i := by
  unfold lookupNode at h
  refine ⟨?_, ?_⟩
  · have := List.mem_of_find?_eq_some h
    simpa using this
  · have := List.find?_some h
    simpa using this

theorem lookupNode_id_mem {nodes : List Node} {i : Nat} {n : Node}
    (h : lookupNode nodes i = some n) : i ∈ nodes.map (fun n => n.common.id) := by
  obtain ⟨hm, hi⟩ := lookupNode_eq_some h
  exact List.mem_map.mpr ⟨n, hm, hi⟩

theorem find?_id_of_mem : ∀ {l : List Node} {n : Node},
    (l.map (fun n => n.common.id)).Nodup → n ∈ l →
    l.find? (fun m => m.common.id == n.common.id) = some n := by
  intro l
  induction l with
  | nil => intro n _ hm; cases hm
  | cons a rest ih =>
    intro n hnd hm
    rcases List.mem_cons.mp hm with rfl | hrest
    · exact List.find?_cons_of_pos _ (by simp)
    · have hne : a.common.id ≠ n.common.id := by
        intro he
        have : n.common.id ∈ rest.map (fun m => m.common.id) :=
          List.mem_map.mpr ⟨n, hrest, rfl⟩
        rw [List.map_cons, List.nodup_cons] at hnd
        exact hnd.1 (he ▸ this)
      rw [List.find?_cons_of_neg _ (by simp [hne])]
      rw [List.map_cons, List.nodup_cons] at hnd
      exact ih hnd.2 hrest

theorem lookupNode_of_mem {nodes : List Node} {n : Node}
    (hnd : (nodes.map (fun n => n.common.id)).Nodup) (hm : n ∈ nodes) :
    lookupNode nodes n.common.id = some n := by
  unfold lookupNode
  refine find?_id_of_mem ?_ (by simpa using hm)
  rw [List.map_reverse]
  exact List.nodup_reverse.mpr hnd

/-! ### Position in an ordering -/

theorem posIn_cons_self {l : List Nat} {x : Nat} : posIn (x :: l) x = 0 := by
  simp [posIn]

theorem posIn_cons_ne {l : List Nat} {a x : Nat} (h : a ≠ x) :
    posIn (a :: l) x = posIn l x + 1 := by
  simp [posIn, h]

/-! ### Kahn's algorithm: permutation, linear extension, totality -/

theorem kahnAux_perm {edges : List (Nat × Nat)} :
    ∀ fuel (rem order : List Nat), rem.length ≤ fuel →
      kahnAux edges fuel rem = some order → order.Perm rem := by
  intro fuel
  induction fuel with
  | zero =>
    intro rem order hlen h
    have : rem = [] := List.eq_nil_of_length_eq_zero (Nat.le_zero.mp hlen)
    subst this
    simp [kahnAux] at h
    simp [← h]
  | succ fuel ih =>
    intro rem order hlen h
    rw [kahnAux] at h
    split at h
    · next =>
      split at h
      · next hemp =>
        have : rem = [] := List.isEmpty_iff.mp hemp
        subst this
        simp at h
        simp [← h]
      · exact absurd h (by simp)
    · next v hf =>
      have hv : v ∈ rem := List.mem_of_find?_eq_some hf
      rcases ho : kahnAux edges fuel (rem.erase v) with _ | order'
      · rw [ho] at h; simp at h
      · rw [ho] at h
        simp only [Option.map_some'] at h
        have hlen' : (rem.erase v).length ≤ fuel := by
          have := List.length_erase_of_mem hv
          omega
        have hperm := ih (rem.erase v) order' hlen' ho
        have : order = v :: order' := by
          injection h with h'; exact h'.symm
        subst this
        exact (hperm.cons v).trans (List.perm_cons_erase hv).symm

theorem not_hasIncoming_iff {edges : List (Nat × Nat)} {rem : List Nat} {v : Nat} :
    hasIncoming edges rem v = false ↔ ∀ e ∈ edges, e.2 = v → e.1 ∉ rem := by
  unfold hasIncoming
  rw [← Bool.not_eq_true, List.any_eq_true]
  constructor
  · intro h e he hv hm
    exact h ⟨e, he, by simp [hv, List.contains, List.elem_iff, hm]⟩
  · rintro h ⟨e, he, hp⟩
    simp only [Bool.and_eq_true, beq_iff_eq, List.contains, List.elem_iff] at hp
    exact h e he hp.1 hp.2

theorem kahnAux_linext {edges : List (Nat × Nat)} :
    ∀ fuel (rem order : List Nat), rem.length ≤ fuel →
      kahnAux edges fuel rem = some order →
      ∀ u v, (u, v) ∈ edges → u ∈ rem → v ∈ rem →
        posIn order u < posIn order v := by
  intro fuel
  induction fuel with
  | zero =>
    intro rem order hlen h u v he hu hv
    have : rem = [] := List.eq_nil_of_length_eq_zero (Nat.le_zero.mp hlen)
    subst this
    cases hu
  | succ fuel ih =>
    intro rem order hlen h u v he hu hv
    rw [kahnAux] at h
    split at h
    · next =>
      split at h
      · next hemp =>
        rw [List.isEmpty_iff.mp hemp] at hu
        cases hu
      · exact absurd h (by simp)
    · next w hf =>
      have hw : w ∈ rem := List.mem_of_find?_eq_some hf
      have hwno : hasIncoming edges rem w = false := by
        have := List.find?_some hf
        simpa using this
      rcases ho : kahnAux edges fuel (rem.erase w) with _ | order'
      · rw [ho] at h; simp at h
      · rw [ho] at h
        simp only [Option.map_some'] at h
        have horder : order = w :: order' := by injection h with h'; exact h'.symm
        subst horder
        have hlen' : (rem.erase w).length ≤ fuel := by
          have := List.length_erase_of_mem hw
          omega
        have hvne : v ≠ w := by
          rintro rfl
          exact (not_hasIncoming_iff.mp hwno (u, v) he rfl) hu
        by_cases huw : u = w
        · subst huw
          rw [posIn_cons_self, posIn_cons_ne (Ne.symm hvne)]
          omega
        · have hu' : u ∈ rem.erase w := (List.mem_erase_of_ne huw).mpr hu
          have hv' : v ∈ rem.erase w := (List.mem_erase_of_ne hvne).mpr hv
          have := ih (rem.erase w) order' hlen' ho u v he hu' hv'
          rw [posIn_cons_ne (fun hh => huw hh.symm), posIn_cons_ne (fun hh => hvne hh.symm)]
          omega

theorem cycle_of_all_incoming {edges : List (Nat × Nat)} {rem : List Nat}
    (hne : rem ≠ []) (hall : ∀ v ∈ rem, hasIncoming edges rem v = true) :
    ∃ w, Relation.TransGen (EdgeRel edges) w w := by
  classical
  set pick : Nat → Nat := fun v =>
    match edges.find? (fun e => e.2 == v && rem.contains e.1) with
    | some e => e.1
    | none => v with hpickdef
  have hpick : ∀ v ∈ rem, pick v ∈ rem ∧ (pick v, v) ∈ edges := by
    intro v hv
    have h1 := hall v hv
    unfold hasIncoming at h1
    rw [List.any_eq_true] at h1
    obtain ⟨e, he, hp⟩ := h1
    rcases hf : edges.find? (fun e => e.2 == v && rem.contains e.1) with _ | e0
    · rw [List.find?_eq_none] at hf
      exact absurd hp (hf e he)
    · have hmem := List.mem_of_find?_eq_some hf
      have hprop := List.find?_some hf
      simp only [Bool.and_eq_true, beq_iff_eq, List.contains, List.elem_iff] at hprop
      have hpv : pick v = e0.1 := by
        simp only [hpickdef, hf]
      refine ⟨?_, ?_⟩
      · rw [hpv]; exact hprop.2
      · rw [hpv, ← hprop.1]
        simpa using hmem
  obtain ⟨v0, hv0⟩ : ∃ v, v ∈ rem := by
    rcases rem with _ | ⟨a, rest⟩
    · exact absurd rfl hne
    · exact ⟨a, by simp⟩
  set x : Nat → Nat := fun i => pick^[i] v0 with hxdef
  have hxmem : ∀ i, x i ∈ rem := by
    intro i
    induction i with
    | zero => simpa [hxdef] using hv0
    | succ i ih =>
      show pick^[i + 1] v0 ∈ rem
      rw [Function.iterate_succ_apply']
      exact (hpick _ ih).1
  have hxedge : ∀ i, (x (i + 1), x i) ∈ edges := by
    intro i
    show (pick^[i + 1] v0, pick^[i] v0) ∈ edges
    rw [Function.iterate_succ_apply']
    exact (hpick _ (hxmem i)).2
  have hchain : ∀ i k, Relation.TransGen (EdgeRel edges) (x (i + k + 1)) (x i) := by
    intro i k
    induction k with
    | zero => exact Relation.TransGen.single (hxedge i)
    | succ k ih =>
      have he : (x (i + k + 1 + 1), x (i + k + 1)) ∈ edges := hxedge (i + k + 1)
      have : i + (k + 1) + 1 = i + k + 1 + 1 := by omega
      rw [this]
      exact Relation.TransGen.head he ih
  have hcard : rem.toFinset.card < (Finset.range (rem.toFinset.card + 1)).card := by
    simp
  obtain ⟨i, hi, j, hj, hij, heq⟩ :=
    Finset.exists_ne_map_eq_of_card_lt_of_maps_to hcard
      (fun a _ => List.mem_toFinset.mpr (hxmem a))
  rcases Nat.lt_or_ge i j with hlt | hge
  · have hk : i + (j - i - 1) + 1 = j := by omega
    have hc := hchain i (j - i - 1)
    rw [hk] at hc
    exact ⟨x j, by rw [← heq] at hc ⊢; exact heq ▸ hc⟩
  · have hlt : j < i := by omega
    have hk : j + (i - j - 1) + 1 = i := by omega
    have hc := hchain j (i - j - 1)
    rw [hk] at hc
    exact ⟨x i, by rw [heq] at hc ⊢; exact heq ▸ hc⟩

theorem kahnAux_isSome {edges : List (Nat × Nat)} (hacy : Acyclic edges) :
    ∀ fuel (rem : List Nat), rem.length ≤ fuel → (kahnAux edges fuel rem).isSome := by
  intro fuel
  induction fuel with
  | zero =>
    intro rem hlen
    have : rem = [] := List.eq_nil_of_length_eq_zero (Nat.le_zero.mp hlen)
    subst this
    simp [kahnAux]
  | succ fuel ih =>
    intro rem hlen
    rw [kahnAux]
    rcases hf : rem.find? (fun v => !hasIncoming edges rem v) with _ | v
    · rcases hrem : rem with _ | ⟨a, rest⟩
      · simp
      · exfalso
        subst hrem
        rw [List.find?_eq_none] at hf
        have hall : ∀ v ∈ a :: rest, hasIncoming edges (a :: rest) v = true := by
          intro v hv
          have := hf v hv
          simpa using this
        obtain ⟨w, hw⟩ := cycle_of_all_incoming (by simp) hall
        exact hacy w hw
    · have hv : v ∈ rem := List.mem_of_find?_eq_some hf
      have hlen' : (rem.erase v).length ≤ fuel := by
        have := List.length_erase_of_mem hv
        omega
      have := ih (rem.erase v) hlen'
      rcases ho : kahnAux edges fuel (rem.erase v) with _ | order'
      · rw [ho] at this; simp at this
      · simp [ho]

theorem transGen_mem {edges : List (Nat × Nat)} {verts : List Nat}
    (hend : ∀ e ∈ edges, e.1 ∈ verts ∧ e.2 ∈ verts) {a b : Nat}
    (h : Relation.TransGen (EdgeRel edges) a b) : a ∈ verts ∧ b ∈ verts := by
  induction h with
  | single h1 => exact ⟨(hend _ h1).1, (hend _ h1).2⟩
  | tail _ h1 ih => exact ⟨ih.1, (hend _ h1).2⟩

theorem posIn_lt_of_transGen {edges : List (Nat × Nat)} {verts order : List Nat}
    (hk : kahn edges verts = some order)
    (hend : ∀ e ∈ edges, e.1 ∈ verts ∧ e.2 ∈ verts) {a b : Nat}
    (h : Relation.TransGen (EdgeRel edges) a b) :
    posIn order a < posIn order b := by
  induction h with
  | single h1 =>
    exact kahnAux_linext verts.length verts order le_rfl hk _ _ h1
      (hend _ h1).1 (hend _ h1).2
  | tail _ h1 ih =>
    have := kahnAux_linext verts.length verts order le_rfl hk _ _ h1
      (hend _ h1).1 (hend _ h1).2
    omega

theorem kahn_none_iff {edges : List (Nat × Nat)} {verts : List Nat}
    (hend : ∀ e ∈ edges, e.1 ∈ verts ∧ e.2 ∈ verts) :
    kahn edges verts = none ↔ ¬ Acyclic edges := by
  constructor
  · intro h hacy
    have := kahnAux_isSome hacy verts.length verts le_rfl
    rw [kahn] at h
    rw [h] at this
    simp at this
  · intro h
    rcases hk : kahn edges verts with _ | order
    · rfl
    · exfalso
      unfold Acyclic at h
      push_neg at h
      obtain ⟨u, hu⟩ := h
      have := posIn_lt_of_transGen hk hend hu
      omega

/-! ### Soundness facts about the line-number edge derivation -/

theorem buildVertices_mem {ids : List Nat} {E : List (Nat × Nat)} {y : Nat} :
    y ∈ buildVertices ids E ↔ y ∈ ids ∨ ∃ e ∈ E, y = e.1 ∨ y = e.2 := by
  unfold buildVertices
  rw [mem_addAll, mem_addAll]
  simp only [List.not_mem_nil, false_or, List.mem_flatMap, List.mem_cons,
    List.mem_singleton, or_false]

theorem filterCalls_mem {nodes : List Node} :
    ∀ {l l' : List Nat}, filterCalls nodes l = .ok l' →
      ∀ i ∈ l', ∃ n, lookupNode nodes i = some n ∧ isCallNode n = true := by
  intro l
  induction l with
  | nil =>
    intro l' h i hi
    rw [filterCalls] at h
    cases h
    cases hi
  | cons a rest ih =>
    intro l' h i hi
    rw [filterCalls] at h
    rcases hg : getNodeElseRaise nodes a with e | n <;> rw [hg] at h
    · simp only [Bind.bind, Except.bind] at h
      cases h
    · simp only [Bind.bind, Except.bind] at h
      rcases ht : filterCalls nodes rest with e | tail <;> simp only [ht] at h
      · cases h
      · have hna : lookupNode nodes a = some n := by
          unfold getNodeElseRaise at hg
          rcases hl : lookupNode nodes a with _ | m <;> rw [hl] at hg
          · cases hg
          · cases hg; rfl
        by_cases hc : isCallNode n = true
        · rw [if_pos hc] at h
          simp only [pure, Except.pure] at h
          cases h
          rcases List.mem_cons.mp hi with rfl | htail
          · exact ⟨n, hna, hc⟩
          · exact ih ht i htail
        · rw [if_neg hc] at h
          simp only [pure, Except.pure] at h
          cases h
          exact ih ht i hi

theorem linenoPairs_fst {nodes : List Node} :
    ∀ {l : List Nat} {ps : List (Nat × Option Nat)}, linenoPairs nodes l = .ok ps →
      ps.map (fun p => p.1) = l := by
  intro l
  induction l with
  | nil =>
    intro ps h
    rw [linenoPairs] at h
    cases h
    rfl
  | cons a rest ih =>
    intro ps h
    rw [linenoPairs] at h
    rcases hg : getNodeElseRaise nodes a with e | n <;> rw [hg] at h
    · simp only [Bind.bind, Except.bind] at h; cases h
    · simp only [Bind.bind, Except.bind] at h
      rcases ht : linenoPairs nodes rest with e | tail <;> rw [ht] at h
      · cases h
      · simp only [pure, Except.pure] at h
        cases h
        simp [ih ht]

theorem linenoPairs_mem {nodes : List Node} :
    ∀ {l : List Nat} {ps : List (Nat × Option Nat)}, linenoPairs nodes l = .ok ps →
      ∀ p ∈ ps, ∃ n, lookupNode nodes p.1 = some n ∧ p.2 = n.common.lineno := by
  intro l
  induction l with
  | nil =>
    intro ps h p hp
    rw [linenoPairs] at h
    cases h
    cases hp
  | cons a rest ih =>
    intro ps h p hp
    rw [linenoPairs] at h
    rcases hg : getNodeElseRaise nodes a with e | n <;> rw [hg] at h
    · simp only [Bind.bind, Except.bind] at h; cases h
    · simp only [Bind.bind, Except.bind] at h
      rcases ht : linenoPairs nodes rest with e | tail <;> rw [ht] at h
      · cases h
      · simp only [pure, Except.pure] at h
        cases h
        rcases List.mem_cons.mp hp with rfl | htail
        · refine ⟨n, ?_, rfl⟩
          unfold getNodeElseRaise at hg
          rcases hl : lookupNode nodes a with _ | m <;> rw [hl] at hg
          · cases hg
          · cases hg; rfl
        · exact ih ht p htail

/-- The call-nodes-ordered-by-line relation the line-number heuristic is
meant to establish between the endpoints of each edge it adds. -/
def callLineLe (nodes : List Node) (a b : Nat) : Prop :=
  ∃ na nb la lb, lookupNode nodes a = some na ∧ lookupNode nodes b = some nb ∧
    isCallNode na = true ∧ isCallNode nb = true ∧
    na.common.lineno = some la ∧ nb.common.lineno = some lb ∧ la ≤ lb

theorem pairwise_of_length_le_one {α : Type} {R : α → α → Prop} {l : List α}
    (h : l.length ≤ 1) : l.Pairwise R := by
  rcases l with _ | ⟨a, rest⟩
  · exact List.Pairwise.nil
  · rcases rest with _ | ⟨b, rest⟩
    · simp
    · simp at h

theorem sortIdsByLineno_sound {nodes : List Node} {calls' out : List Nat}
    (hcalls : ∀ i ∈ calls', ∃ n, lookupNode nodes i = some n ∧ isCallNode n = true)
    (h : sortIdsByLineno nodes calls' = .ok out) :
    (∀ i ∈ out, i ∈ calls') ∧ out.Pairwise (callLineLe nodes) := by
  unfold sortIdsByLineno at h
  rcases hp : linenoPairs nodes calls' with e | ps <;> rw [hp] at h
  · simp only [Bind.bind, Except.bind] at h; cases h
  · simp only [Bind.bind, Except.bind] at h
    have hfst := linenoPairs_fst hp
    have hlen : ps.length = calls'.length := by
      rw [← hfst]; simp
    by_cases hle : ps.length ≤ 1
    · rw [if_pos hle] at h
      simp only [pure, Except.pure] at h
      cases h
      exact ⟨fun i hi => hi, pairwise_of_length_le_one (by omega)⟩
    · rw [if_neg hle] at h
      by_cases hall : ps.all (fun p => p.2.isSome) = true
      · rw [if_pos hall] at h
        simp only [pure, Except.pure] at h
        cases h
        have hperm : (List.insertionSort (fun p q => p.2.getD 0 ≤ q.2.getD 0) ps).Perm ps :=
          List.perm_insertionSort _ ps
        constructor
        · intro i hi
          rw [List.mem_map] at hi
          obtain ⟨p, hpmem, rfl⟩ := hi
          have : p ∈ ps := hperm.mem_iff.mp hpmem
          rw [← hfst]
          exact List.mem_map.mpr ⟨p, this, rfl⟩
        · have hsorted :
              (List.insertionSort (fun p q => p.2.getD 0 ≤ q.2.getD 0) ps).Pairwise
                (fun p q => p.2.getD 0 ≤ q.2.getD 0) := by
            haveI : IsTotal (Nat × Option Nat) (fun p q => p.2.getD 0 ≤ q.2.getD 0) :=
              ⟨fun a b => by omega⟩
            haveI : IsTrans (Nat × Option Nat) (fun p q => p.2.getD 0 ≤ q.2.getD 0) :=
              ⟨fun a b c hab hbc => by omega⟩
            exact List.sorted_insertionSort _ ps
          rw [List.pairwise_map]
          refine hsorted.imp_of_mem ?_
          intro p q hpm hqm hle'
          have hp' : p ∈ ps := hperm.mem_iff.mp hpm
          have hq' : q ∈ ps := hperm.mem_iff.mp hqm
          obtain ⟨np, hnp, hlp⟩ := linenoPairs_mem hp p hp'
          obtain ⟨nq, hnq, hlq⟩ := linenoPairs_mem hp q hq'
          rw [List.all_eq_true] at hall
          have hps : p.2.isSome := hall p hp'
          have hqs : q.2.isSome := hall q hq'
          obtain ⟨lp, hlp'⟩ := Option.isSome_iff_exists.mp hps
          obtain ⟨lq, hlq'⟩ := Option.isSome_iff_exists.mp hqs
          have hip : p.1 ∈ calls' := by rw [← hfst]; exact List.mem_map.mpr ⟨p, hp', rfl⟩
          have hiq : q.1 ∈ calls' := by rw [← hfst]; exact List.mem_map.mpr ⟨q, hq', rfl⟩
          obtain ⟨np', hnp', hcp⟩ := hcalls _ hip
          obtain ⟨nq', hnq', hcq⟩ := hcalls _ hiq
          have hep : np' = np := by rw [hnp'] at hnp; cases hnp; rfl
          have heq' : nq' = nq := by rw [hnq'] at hnq; cases hnq; rfl
          subst hep; subst heq'
          refine ⟨np', nq', lp, lq, hnp', hnq', hcp, hcq, ?_, ?_, ?_⟩
          · rw [← hlp, hlp']
          · rw [← hlq, hlq']
          · simp only [hlp', hlq', Option.getD_some] at hle'
            exact hle'
      · rw [if_neg hall] at h
        cases h

theorem pairsToAdd_fresh {E : List (Nat × Nat)} :
    ∀ (l : List Nat) (p : Nat × Nat), p ∈ pairsToAdd E l →
      p ∉ E ∧ (p.2, p.1) ∉ E
  | [], p, hp => absurd hp (by simp [pairsToAdd])
  | [a], p, hp => absurd hp (by simp [pairsToAdd])
  | a :: b :: rest, p, hp => by
    rw [pairsToAdd, List.mem_append] at hp
    rcases hp with hh | ht
    · split at hh
      · cases hh
      · next hng =>
        rw [List.mem_singleton] at hh
        subst hh
        push_neg at hng
        exact ⟨hng.1, hng.2⟩
    · exact pairsToAdd_fresh (b :: rest) p ht

theorem pairsToAdd_rel {R : Nat → Nat → Prop} {E : List (Nat × Nat)} :
    ∀ (l : List Nat), l.Pairwise R → ∀ (p : Nat × Nat), p ∈ pairsToAdd E l →
      R p.1 p.2
  | [], _, p, hp => absurd hp (by simp [pairsToAdd])
  | [a], _, p, hp => absurd hp (by simp [pairsToAdd])
  | a :: b :: rest, hpw, p, hp => by
    rw [pairsToAdd, List.mem_append] at hp
    rcases hp with hh | ht
    · split at hh
      · cases hh
      · rw [List.mem_singleton] at hh
        subst hh
        exact (List.pairwise_cons.mp hpw).1 b (by simp)
    · exact pairsToAdd_rel (b :: rest) (List.pairwise_cons.mp hpw).2 p ht

theorem pairsToAdd_mem {E : List (Nat × Nat)} :
    ∀ (l : List Nat) (p : Nat × Nat), p ∈ pairsToAdd E l →
      p.1 ∈ l ∧ p.2 ∈ l
  | [], p, hp => absurd hp (by simp [pairsToAdd])
  | [a], p, hp => absurd hp (by simp [pairsToAdd])
  | a :: b :: rest, p, hp => by
    rw [pairsToAdd, List.mem_append] at hp
    rcases hp with hh | ht
    · split at hh
      · cases hh
      · rw [List.mem_singleton] at hh
        subst hh
        exact ⟨by simp, by simp⟩
    · have := pairsToAdd_mem (b :: rest) p ht
      exact ⟨List.mem_cons_of_mem a this.1, List.mem_cons_of_mem a this.2⟩

theorem lineEdgesForDs_sound {nodes : List Node} {fuel : Nat}
    {E : List (Nat × Nat)} {dsId : Nat} {L : List (Nat × Nat)}
    (h : lineEdgesForDs nodes fuel E dsId = .ok L) :
    ∀ p ∈ L, callLineLe nodes p.1 p.2 ∧ p ∉ E ∧ (p.2, p.1) ∉ E := by
  unfold lineEdgesForDs at h
  rcases hc : filterCalls nodes (descendantsOf E fuel dsId) with e | calls' <;> rw [hc] at h
  · simp only [Bind.bind, Except.bind] at h; cases h
  · simp only [Bind.bind, Except.bind] at h
    rcases hs : sortIdsByLineno nodes calls' with e | out <;> rw [hs] at h
    · cases h
    · simp only [pure, Except.pure] at h
      cases h
      intro p hp
      obtain ⟨hsub, hpw⟩ := sortIdsByLineno_sound (filterCalls_mem hc) hs
      exact ⟨pairsToAdd_rel _ hpw p hp, pairsToAdd_fresh _ p hp⟩

theorem lineEdgesAux_sound {nodes : List Node} {fuel : Nat} {E : List (Nat × Nat)} :
    ∀ {l : List Node} {L : List (Nat × Nat)}, lineEdgesAux nodes fuel E l = .ok L →
      ∀ p ∈ L, callLineLe nodes p.1 p.2 ∧ p ∉ E ∧ (p.2, p.1) ∉ E := by
  intro l
  induction l with
  | nil =>
    intro L h p hp
    rw [lineEdgesAux] at h
    cases h
    cases hp
  | cons n rest ih =>
    intro L h p hp
    rw [lineEdgesAux] at h
    split at h
    · rcases hd : lineEdgesForDs nodes fuel E n.common.id with e | here <;> rw [hd] at h
      · simp only [Bind.bind, Except.bind] at h; cases h
      · simp only [Bind.bind, Except.bind] at h
        rcases ht : lineEdgesAux nodes fuel E rest with e | there <;> rw [ht] at h
        · cases h
        · simp only [pure, Except.pure] at h
          cases h
          rcases List.mem_append.mp hp with hh | hh
          · exact lineEdgesForDs_sound hd p hh
          · exact ih ht p hh
    · exact ih h p hp

/-- Both endpoints of every derived line-number edge are ids of call nodes
present in the node list. -/
theorem lineEdgesAux_endpoints {nodes : List Node} {fuel : Nat}
    {E : List (Nat × Nat)} {l : List Node} {L : List (Nat × Nat)}
    (h : lineEdgesAux nodes fuel E l = .ok L) :
    ∀ p ∈ L, p.1 ∈ nodes.map (fun n => n.common.id) ∧
      p.2 ∈ nodes.map (fun n => n.common.id) := by
  intro p hp
  obtain ⟨⟨n1, n2, l1, l2, h1, h2, _⟩, _, _⟩ := lineEdgesAux_sound h p hp
  exact ⟨lookupNode_id_mem h1, lookupNode_id_mem h2⟩

/-! ### Graph construction: the two structural claims -/

theorem refEdges_snd {nodes : List Node} {e : Nat × Nat} (he : e ∈ refEdges nodes) :
    e.2 ∈ nodes.map (fun n => n.common.id) := by
  unfold refEdges at he
  rw [List.mem_flatMap] at he
  obtain ⟨n, hn, hme⟩ := he
  rw [List.mem_map] at hme
  obtain ⟨p, _, rfl⟩ := hme
  exact List.mem_map.mpr ⟨n, hn, rfl⟩

theorem vertices_eq_ids {nodes : List Node} {lineE : List (Nat × Nat)}
    (hids : (nodes.map (fun n => n.common.id)).Nodup)
    (hrefs : ∀ e ∈ refEdges nodes, e.1 ∈ nodes.map (fun n => n.common.id))
    (hlineE : ∀ p ∈ lineE, p.1 ∈ nodes.map (fun n => n.common.id) ∧
      p.2 ∈ nodes.map (fun n => n.common.id)) :
    addAll (buildVertices (nodes.map (fun n => n.common.id)) (refEdges nodes))
      (lineE.flatMap (fun e => [e.1, e.2])) = nodes.map (fun n => n.common.id) := by
  have hbv : buildVertices (nodes.map (fun n => n.common.id)) (refEdges nodes) =
      nodes.map (fun n => n.common.id) := by
    unfold buildVertices
    rw [addAll_nil_eq hids]
    refine addAll_eq_of_subset ?_
    intro x hx
    rw [List.mem_flatMap] at hx
    obtain ⟨e, he, hxe⟩ := hx
    rcases List.mem_cons.mp hxe with rfl | hxe
    · exact hrefs e he
    · rw [List.mem_singleton] at hxe
      subst hxe
      exact refEdges_snd he
  rw [hbv]
  refine addAll_eq_of_subset ?_
  intro x hx
  rw [List.mem_flatMap] at hx
  obtain ⟨e, he, hxe⟩ := hx
  rcases List.mem_cons.mp hxe with rfl | hxe
  · exact (hlineE e he).1
  · rw [List.mem_singleton] at hxe
    subst hxe
    exact (hlineE e he).2

/-- All endpoints of the assembled edge set lie in the assembled vertex
set, with no hypotheses: networkx inserts every edge endpoint. -/
theorem mkGraph_endpoints (nodes : List Node) (lineE : List (Nat × Nat)) :
    ∀ e ∈ refEdges nodes ++ lineE,
      e.1 ∈ addAll (buildVertices (nodes.map (fun n => n.common.id)) (refEdges nodes))
        (lineE.flatMap (fun e => [e.1, e.2])) ∧
      e.2 ∈ addAll (buildVertices (nodes.map (fun n => n.common.id)) (refEdges nodes))
        (lineE.flatMap (fun e => [e.1, e.2])) := by
  intro e he
  rcases List.mem_append.mp he with hr | hl
  · constructor
    · rw [mem_addAll]
      exact Or.inl (buildVertices_mem.mpr (Or.inr ⟨e, hr, Or.inl rfl⟩))
    · rw [mem_addAll]
      exact Or.inl (buildVertices_mem.mpr (Or.inr ⟨e, hr, Or.inr rfl⟩))
  · constructor
    · rw [mem_addAll]
      exact Or.inr (List.mem_flatMap.mpr ⟨e, hl, by simp⟩)
    · rw [mem_addAll]
      exact Or.inr (List.mem_flatMap.mpr ⟨e, hl, by simp⟩)

/-- C1.  For every node list satisfying the data-model invariants (unique
ids, resolving references) whose derived edge set — node-reference edges
plus line-number ordering edges, as the successful derivation `hder`
produces it — is acyclic, Graph construction succeeds, and `visit_order`
returns a permutation of all node ids in which the source of every derived
edge appears strictly before its sink. -/
theorem visit_order_topological {nodes : List Node} {sc : SessionContext}
    {E : List (Nat × Nat)}
    (hids : (nodes.map (fun n => n.common.id)).Nodup)
    (hrefs : ∀ e ∈ refEdges nodes, e.1 ∈ nodes.map (fun n => n.common.id))
    (hder : derivedEdges nodes = .ok E)
    (hacy : Acyclic E) :
    ∃ g, mkGraph nodes sc = .ok g ∧
      g.visitOrder.Perm (nodes.map (fun n => n.common.id)) ∧
      ∀ u v, EdgeRel E u v → posIn g.visitOrder u < posIn g.visitOrder v := by
  unfold derivedEdges at hder
  rcases hle : lineEdges nodes with e | lineE <;> rw [hle] at hder
  · simp only [Bind.bind, Except.bind] at hder
    cases hder
  · simp only [Bind.bind, Except.bind, pure, Except.pure] at hder
    cases hder
    have hlineE := lineEdgesAux_endpoints hle
    have hveq := vertices_eq_ids hids hrefs hlineE
    have hend := mkGraph_endpoints nodes lineE
    rw [hveq] at hend
    have hk : (kahn (refEdges nodes ++ lineE) (nodes.map (fun n => n.common.id))).isSome := by
      by_contra hns
      rw [Option.not_isSome_iff_eq_none] at hns
      exact absurd hacy ((kahn_none_iff hend).mp hns)
    obtain ⟨order, horder⟩ := Option.isSome_iff_exists.mp hk
    unfold mkGraph
    simp only [hle]
    rw [hveq]
    rw [if_pos hk]
    refine ⟨_, rfl, ?_, ?_⟩
    · show Graph.visitOrder ⟨nodes, sc, nodes.map (fun n => n.common.id),
        refEdges nodes ++ lineE⟩ |>.Perm _
      unfold Graph.visitOrder
      simp only [horder, Option.getD_some]
      exact kahnAux_perm _ _ _ le_rfl horder
    · intro u v huv
      show posIn (Graph.visitOrder ⟨nodes, sc, _, _⟩) u < _
      unfold Graph.visitOrder
      simp only [horder, Option.getD_some]
      exact kahnAux_linext _ _ _ le_rfl horder u v huv
        (hend _ huv).1 (hend _ huv).2

/-- A graph whose vertices admit a Kahn ordering is acyclic — the converse
direction packaged for concrete inputs, where the Kahn run is decidable. -/
theorem acyclic_of_kahn_some {E : List (Nat × Nat)} {verts order : List Nat}
    (hend : ∀ e ∈ E, e.1 ∈ verts ∧ e.2 ∈ verts)
    (hk : kahn E verts = some order) : Acyclic E := by
  intro u hu
  have := posIn_lt_of_transGen hk hend hu
  omega

/-- Witness for C1: the two-link alias-chain node set satisfies every
hypothesis, and the conclusion holds for it. -/
theorem visit_order_topological_witness :
    (([valNode, aliasTail, aliasHead].map (fun n => n.common.id)).Nodup ∧
      (∀ e ∈ refEdges [valNode, aliasTail, aliasHead],
        e.1 ∈ [valNode, aliasTail, aliasHead].map (fun n => n.common.id)) ∧
      derivedEdges [valNode, aliasTail, aliasHead] = .ok [(10, 11), (11, 12)] ∧
      Acyclic [(10, 11), (11, 12)]) ∧
    ∃ g, mkGraph [valNode, aliasTail, aliasHead] scA = .ok g ∧
      g.visitOrder.Perm ([valNode, aliasTail, aliasHead].map (fun n => n.common.id)) ∧
      ∀ u v, EdgeRel [(10, 11), (11, 12)] u v →
        posIn g.visitOrder u < posIn g.visitOrder v := by
  have hacy : Acyclic [(10, 11), (11, 12)] :=
    @acyclic_of_kahn_some [(10, 11), (11, 12)] [10, 11, 12] [10, 11, 12]
      (by decide) (by decide)
  exact ⟨⟨by decide, by decide, by rfl, hacy⟩,
    visit_order_topological (by decide) (by decide) (by rfl) hacy⟩

/-- C2.  Under a successful edge derivation, construction fails with the
structural-integrity error exactly when the derived edge set has a cycle;
in particular the Read/Write `StateChangeNode` reference cycle
`[wNode, rNode]` fails that way under any session context.  The error is
returned by the constructor itself in place of a `Graph` value, so no
query can be answered on the failed construction. -/
theorem construction_fails_iff_cyclic {nodes : List Node} {sc : SessionContext}
    {E : List (Nat × Nat)}
    (hder : derivedEdges nodes = .ok E) :
    (mkGraph nodes sc = .error .internalLogic ↔ ¬ Acyclic E) ∧
    ∀ sc2, mkGraph [wNode, rNode] sc2 = .error .internalLogic := by
  constructor
  · unfold derivedEdges at hder
    rcases hle : lineEdges nodes with e | lineE <;> rw [hle] at hder
    · simp only [Bind.bind, Except.bind] at hder
      cases hder
    · simp only [Bind.bind, Except.bind, pure, Except.pure] at hder
      cases hder
      have hend := mkGraph_endpoints nodes lineE
      unfold mkGraph
      simp only [hle]
      constructor
      · intro h
        split at h
        · cases h
        · next hns =>
          rw [Option.not_isSome_iff_eq_none] at hns
          exact (kahn_none_iff hend).mp hns
      · intro h
        have hnone := (kahn_none_iff hend).mpr h
        rw [if_neg (by rw [hnone]; simp)]
  · intro sc2
    rfl

/-- Witness for C2: instantiated on the acyclic alias-chain node set, with
the hypothesis discharged by evaluation. -/
theorem construction_fails_iff_cyclic_witness :
    derivedEdges [valNode, aliasTail, aliasHead] = .ok [(10, 11), (11, 12)] ∧
    ((mkGraph [valNode, aliasTail, aliasHead] scA = .error .internalLogic ↔
        ¬ Acyclic [(10, 11), (11, 12)]) ∧
      ∀ sc2, mkGraph [wNode, rNode] sc2 = .error .internalLogic) :=
  ⟨by rfl, construction_fails_iff_cyclic (by rfl)⟩

/-! ### Alias-chain resolution (C3) and the broken-chain crash (C4) -/

theorem valueAttrOf_ok {n : Node} {v : Option Value}
    (h : valueAttrOf (some n) = .ok v) :
    ∃ f fm ldf args av, n.data = .call f fm ldf args av v := by
  cases hnd : n.data
  case call f fm ldf args av val =>
    have hv : valueAttrOf (some n) = .ok val := by simp [valueAttrOf, hnd]
    rw [h] at hv
    injection hv with hv2
    exact ⟨f, fm, ldf, args, av, by rw [hv2]⟩
  all_goals
    exfalso
    have hv : valueAttrOf (some n) = .error .attributeErr := by simp [valueAttrOf, hnd]
    rw [h] at hv
    cases hv

theorem getNode_of_mem {g : Graph} {n : Node}
    (hids : (g.nodes.map (fun m => m.common.id)).Nodup) (hm : n ∈ g.nodes) :
    getNode g (some n.common.id) = some n :=
  lookupNode_of_mem hids hm

theorem aliasLoop_resolves {g : Graph} {t : Node}
    (hids : (g.nodes.map (fun m => m.common.id)).Nodup)
    (htm : t ∈ g.nodes) (htv : isVariableNode t = false) :
    ∀ (vs : List Node) (fuel : Nat), chainLinked t vs → (∀ v ∈ vs, v ∈ g.nodes) →
      vs.length + 1 ≤ fuel →
      aliasLoop g fuel (some (vs.headD t)) = .ok (some t) := by
  intro vs
  induction vs with
  | nil =>
    intro fuel _ _ hf
    rcases fuel with _ | fuel
    · omega
    · rw [aliasLoop]
      show (match t.data with
        | .variableNode src => aliasLoop g fuel (getNode g (some src))
        | _ => .ok (some t)) = .ok (some t)
      rcases hnd : t.data with _ | _ | _ | src | _ | _ | _ <;> try rfl
      rw [isVariableNode, hnd] at htv
      cases htv
  | cons v rest ih =>
    intro fuel hchain hmem hf
    rcases fuel with _ | fuel
    · omega
    · rw [aliasLoop]
      show (match v.data with
        | .variableNode src => aliasLoop g fuel (getNode g (some src))
        | _ => .ok (some v)) = .ok (some t)
      simp only [hchain.1]
      have hnext : rest.headD t ∈ g.nodes := by
        cases rest with
        | nil => exact htm
        | cons v2 r2 => exact hmem v2 (by simp)
      rw [getNode_of_mem hids hnext]
      exact ih fuel hchain.2 (fun w hw => hmem w (by simp [hw])) (by simp at hf ⊢; omega)

/-- C3.  Alias resolution is chain-length-independent: for every chain of N
`VariableNode`s, each aliasing the next and terminating at a concrete
value-bearing node present in the graph, `get_node_value` on the head of
the chain returns the stored value of the terminal node — the same value
whatever N is (the head of an empty chain being the terminal itself), with
no warning printed. -/
theorem alias_chain_resolution (g : Graph)
    (vars : List Node) (t : Node) (val : Value)
    (hids : (g.nodes.map (fun m => m.common.id)).Nodup)
    (hvmem : ∀ v ∈ vars, v ∈ g.nodes) (hvnd : vars.Nodup)
    (htm : t ∈ g.nodes)
    (hchain : chainLinked t vars)
    (hterm : valueAttrOf (some t) = .ok (some val)) :
    g.getNodeValue (some (vars.headD t)) = .ok (some val, []) := by
  obtain ⟨f, fm, ldf, args, av, hnd⟩ := valueAttrOf_ok hterm
  have htv : isVariableNode t = false := by rw [isVariableNode, hnd]
  have hlen : vars.length ≤ g.nodes.length := by
    have hsub : vars ⊆ g.nodes := fun x hx => hvmem x hx
    exact (List.Nodup.subperm hvnd hsub).length_le
  unfold Graph.getNodeValue Graph.gFuel
  cases vars with
  | nil =>
    show getNodeValueAux g (g.nodes.length + 1) (some t) = _
    rw [getNodeValueAux]
    simp only [hnd]
    rw [hterm]
    rfl
  | cons v rest =>
    show getNodeValueAux g (g.nodes.length + 1) (some v) = _
    rw [getNodeValueAux]
    simp only [hchain.1]
    have hnext : rest.headD t ∈ g.nodes := by
      cases rest with
      | nil => exact htm
      | cons v2 r2 => exact hvmem v2 (by simp)
    rw [getNode_of_mem hids hnext]
    cases rest with
    | nil =>
      show (match t.data with
        | .variableNode _ =>
          match aliasLoop g g.nodes.length (some t) with
          | .error e => (.error e : Except PyErr (Option Value × List Warning))
          | .ok s => (valueAttrOf s).map (fun v => (v, []))
        | _ => (valueAttrOf (some t)).map (fun v => (v, []))) = _
      simp only [hnd]
      rw [hterm]
      rfl
    | cons v2 r2 =>
      have hv2 : v2.data = .variableNode ((r2.headD t).common.id) := hchain.2.1
      show (match v2.data with
        | .variableNode _ =>
          match aliasLoop g g.nodes.length (some v2) with
          | .error e => (.error e : Except PyErr (Option Value × List Warning))
          | .ok s => (valueAttrOf s).map (fun v => (v, []))
        | _ => (valueAttrOf (some v2)).map (fun v => (v, []))) = _
      simp only [hv2]
      have hloop : aliasLoop g g.nodes.length (some ((v2 :: r2).headD t)) = .ok (some t) :=
        aliasLoop_resolves hids htm htv (v2 :: r2) g.nodes.length hchain.2
          (fun w hw => hvmem w (by simp [hw]))
          (by simp at hlen ⊢; omega)
      simp only [List.headD_cons] at hloop
      simp only [hloop, hterm]
      rfl

/-- Witness for C3: the two-link chain resolves to the terminal value 42. -/
theorem alias_chain_resolution_witness :
    mkGraph [valNode, aliasTail, aliasHead] scA = .ok chainGraph ∧
    chainLinked valNode [aliasHead, aliasTail] ∧
    valueAttrOf (some valNode) = .ok (some (.vInt 42)) ∧
    chainGraph.getNodeValue (some ([aliasHead, aliasTail].headD valNode)) =
      .ok (some (.vInt 42), []) :=
  ⟨by rfl, ⟨rfl, rfl, trivial⟩, by rfl,
    alias_chain_resolution chainGraph [aliasHead, aliasTail] valNode (.vInt 42)
      (by decide) (by decide) (by decide) (by decide)
      ⟨rfl, rfl, trivial⟩ (by rfl)⟩

/-- C4 exhibit.  The code crashes on a chain broken at depth two: with
`brokenTail` (id 11, aliasing the missing id 99) and `aliasHead` (id 12,
aliasing 11), construction succeeds but `get_node_value` on node 12 raises
the `AttributeError` of reading `.value` off `None` — not the
empty-result-with-warning the spec prescribes.  A chain broken at depth
one (node 12 aliasing the missing 99 directly) does return the empty
result with the warning. -/
theorem broken_chain_crash :
    (∃ g, mkGraph [brokenTail, aliasHead] scA = .ok g ∧
      g.getNodeValue (getNode g (some 12)) = .error .attributeErr) ∧
    (∃ g2, mkGraph [brokenHead] scA = .ok g2 ∧
      g2.getNodeValue (getNode g2 (some 12)) = .ok (none, [.sourceNotFound])) :=
  ⟨⟨⟨[brokenTail, aliasHead], scA, [11, 12, 99], [(99, 11), (11, 12)]⟩, by rfl, by rfl⟩,
   ⟨⟨[brokenHead], scA, [12, 99], [(99, 12)]⟩, by rfl, by rfl⟩⟩

/-! ### Argument partitioning (C5) -/

theorem getNodeElseRaise_of_lookup {nodes : List Node} {i : Nat} {n : Node}
    (h : lookupNode nodes i = some n) : getNodeElseRaise nodes i = .ok n := by
  unfold getNodeElseRaise
  rw [h]

theorem dictInsert_fresh {d : List (String × Option Value)} {k : String} {v : Option Value}
    (h : d.any (fun p => p.1 == k) = false) :
    dictInsert d k v = d ++ [(k, v)] := by
  simp [dictInsert, h]

theorem collectArgs_spec {g : Graph} :
    ∀ {argIds : List Nat} {anodes : List Node},
      List.Forall₂ (fun i a => lookupNode g.nodes i = some a) argIds anodes →
      (∀ a ∈ anodes, isArgumentNode a = true) →
      (∀ a ∈ anodes, ∃ v, getValueOnly g (some a) = .ok v) →
      (kwNamesOf anodes).Nodup →
      ∀ accPos accKw,
        (∀ k ∈ kwNamesOf anodes, accKw.any (fun p => p.1 == k) = false) →
        ∃ kwpairs,
          collectArgs g argIds accPos accKw =
            .ok (accPos ++ posArgsOf anodes, accKw ++ kwpairs) ∧
          List.Forall₂ (fun a p => keywordOf a = some p.1 ∧ getValueOnly g (some a) = .ok p.2)
            (kwArgsOf anodes) kwpairs := by
  intro argIds anodes hlook
  induction hlook with
  | nil =>
    intro _ _ _ accPos accKw _
    refine ⟨[], ?_, ?_⟩
    · simp [collectArgs, posArgsOf]
    · simp [kwArgsOf]
  | @cons i a is as hia hrest ih =>
    intro harg hvals hkwnd accPos accKw hdisj
    obtain ⟨kw, pos, lit, vref, hdata⟩ :
        ∃ kw pos lit vref, a.data = .argument kw pos lit vref := by
      have hi := harg a (by simp)
      cases hd : a.data
      case argument kw pos lit vref => exact ⟨kw, pos, lit, vref, rfl⟩
      all_goals (rw [isArgumentNode, hd] at hi; cases hi)
    have hkw : argKeyword a = .ok kw := by simp [argKeyword, hdata]
    have hkwOf : keywordOf a = kw := by simp [keywordOf, hdata]
    have harg' : ∀ b ∈ as, isArgumentNode b = true := fun b hb => harg b (by simp [hb])
    have hvals' : ∀ b ∈ as, ∃ v, getValueOnly g (some b) = .ok v :=
      fun b hb => hvals b (by simp [hb])
    cases kw with
    | some k =>
      obtain ⟨v, hv⟩ := hvals a (by simp)
      have hnames : kwNamesOf (a :: as) = k :: kwNamesOf as := by
        simp [kwNamesOf, hkwOf]
      have hkwnd' : (kwNamesOf as).Nodup := by
        rw [hnames] at hkwnd
        exact hkwnd.of_cons
      have hknotin : k ∉ kwNamesOf as := by
        rw [hnames, List.nodup_cons] at hkwnd
        exact hkwnd.1
      have hfresh : accKw.any (fun p => p.1 == k) = false :=
        hdisj k (by rw [hnames]; simp)
      have hstep : collectArgs g (i :: is) accPos accKw =
          collectArgs g is accPos (accKw ++ [(k, v)]) := by
        rw [collectArgs]
        simp only [getNodeElseRaise_of_lookup hia, Bind.bind, Except.bind, hkw, hv,
          dictInsert_fresh hfresh]
      have hdisj' : ∀ k2 ∈ kwNamesOf as,
          (accKw ++ [(k, v)]).any (fun p => p.1 == k2) = false := by
        intro k2 hk2
        rw [List.any_append]
        have h1 := hdisj k2 (by rw [hnames]; simp [hk2])
        have hne : k ≠ k2 := fun he => hknotin (he ▸ hk2)
        simp [h1, hne]
      obtain ⟨kwpairs, hcol, hf2⟩ := ih harg' hvals' hkwnd' accPos (accKw ++ [(k, v)]) hdisj'
      refine ⟨(k, v) :: kwpairs, ?_, ?_⟩
      · rw [hstep, hcol]
        have hpos : posArgsOf (a :: as) = posArgsOf as := by
          simp [posArgsOf, hkwOf]
        rw [hpos, List.append_assoc]
        rfl
      · have hkwa : kwArgsOf (a :: as) = a :: kwArgsOf as := by
          simp [kwArgsOf, hkwOf]
        rw [hkwa]
        exact List.Forall₂.cons ⟨by rw [hkwOf], hv⟩ hf2
    | none =>
      have hstep : collectArgs g (i :: is) accPos accKw =
          collectArgs g is (accPos ++ [a]) accKw := by
        rw [collectArgs]
        simp only [getNodeElseRaise_of_lookup hia, Bind.bind, Except.bind, hkw]
      have hnames : kwNamesOf (a :: as) = kwNamesOf as := by
        simp [kwNamesOf, hkwOf]
      obtain ⟨kwpairs, hcol, hf2⟩ := ih harg' hvals' (by rw [hnames] at hkwnd; exact hkwnd)
        (accPos ++ [a]) accKw (by rw [hnames] at hdisj; exact hdisj)
      refine ⟨kwpairs, ?_, ?_⟩
      · rw [hstep, hcol]
        have hpos : posArgsOf (a :: as) = a :: posArgsOf as := by
          simp [posArgsOf, hkwOf]
        rw [hpos]
        simp
      · have hkwa : kwArgsOf (a :: as) = kwArgsOf as := by
          simp [kwArgsOf, hkwOf]
        rw [hkwa]
        exact hf2

theorem sortArgs_spec {args : List Node}
    (hpos : ∀ a ∈ args, (argPosition a).isSome = true) :
    ∃ sorted, sortArgsByPosition args = .ok sorted ∧ sorted.Perm args ∧
      sorted.Pairwise (fun a b => (argPosition a).getD 0 ≤ (argPosition b).getD 0) := by
  unfold sortArgsByPosition
  by_cases hlen : args.length ≤ 1
  · rw [if_pos hlen]
    exact ⟨args, rfl, List.Perm.refl _, pairwise_of_length_le_one hlen⟩
  · rw [if_neg hlen]
    have hall : args.all (fun a => (argPosition a).isSome) = true := by
      rw [List.all_eq_true]
      exact hpos
    rw [if_pos hall]
    refine ⟨_, rfl, List.perm_insertionSort _ args, ?_⟩
    haveI : IsTotal Node (fun a b => (argPosition a).getD 0 ≤ (argPosition b).getD 0) :=
      ⟨fun a b => by omega⟩
    haveI : IsTrans Node (fun a b => (argPosition a).getD 0 ≤ (argPosition b).getD 0) :=
      ⟨fun a b c hab hbc => by omega⟩
    exact List.sorted_insertionSort _ args

theorem mapValues_spec {g : Graph} :
    ∀ {l : List Node}, (∀ a ∈ l, ∃ v, getValueOnly g (some a) = .ok v) →
      ∃ vals, mapValues g l = .ok vals ∧
        List.Forall₂ (fun a v => getValueOnly g (some a) = .ok v) l vals := by
  intro l
  induction l with
  | nil =>
    intro _
    exact ⟨[], by simp [mapValues], List.Forall₂.nil⟩
  | cons a rest ih =>
    intro hv
    obtain ⟨v, hva⟩ := hv a (by simp)
    obtain ⟨vals, hmv, hf2⟩ := ih (fun b hb => hv b (by simp [hb]))
    refine ⟨v :: vals, ?_, List.Forall₂.cons hva hf2⟩
    rw [mapValues]
    simp only [hva, Bind.bind, Except.bind, hmv]
    rfl

/-- C5.  For every call node whose argument references resolve to argument
nodes, each bearing exactly one of a keyword or a positional index,
`get_arguments_from_call_node` returns the positional argument values
ordered ascending by positional index together with the keyword-to-value
mapping in iteration order; in particular, on the arguments
[positional 1 → 5, positional 0 → 7, keyword "b" → 1] it returns
positional values [7, 5] and the mapping b → 1. -/
theorem get_arguments_partition :
    (∀ (g : Graph) (node : Node) (f : String) (fm ldf : Option Nat)
      (argIds : List Nat) (av : Option String) (cv : Option Value)
      (anodes : List Node),
      node.data = .call f fm ldf argIds av cv →
      List.Forall₂ (fun i a => lookupNode g.nodes i = some a) argIds anodes →
      (∀ a ∈ anodes, isArgumentNode a = true) →
      (∀ a ∈ anodes, (keywordOf a).isSome = !(argPosition a).isSome) →
      (∀ a ∈ anodes, ∃ v, getValueOnly g (some a) = .ok v) →
      (kwNamesOf anodes).Nodup →
      ∃ sorted vals kwpairs,
        getArgumentsFromCallNode g node = .ok (vals, kwpairs) ∧
        sorted.Perm (posArgsOf anodes) ∧
        sorted.Pairwise (fun a b => (argPosition a).getD 0 ≤ (argPosition b).getD 0) ∧
        List.Forall₂ (fun a v => getValueOnly g (some a) = .ok v) sorted vals ∧
        List.Forall₂ (fun a p => keywordOf a = some p.1 ∧ getValueOnly g (some a) = .ok p.2)
          (kwArgsOf anodes) kwpairs) ∧
    mkGraph [argPos1, argPos0, argKw, callAbc] scA = .ok argGraph ∧
    getArgumentsFromCallNode argGraph callAbc =
      .ok ([some (.vInt 7), some (.vInt 5)], [("b", some (.vInt 1))]) := by
  refine ⟨?_, by rfl, by rfl⟩
  intro g node f fm ldf argIds av cv anodes hnode hlook harg hone hvals hkwnd
  obtain ⟨kwpairs, hcol, hkwf2⟩ :=
    collectArgs_spec hlook harg hvals hkwnd [] [] (fun k _ => rfl)
  have hposall : ∀ a ∈ posArgsOf anodes, (argPosition a).isSome = true := by
    intro a ha
    unfold posArgsOf at ha
    rw [List.mem_filter] at ha
    have h1 := hone a ha.1
    have h2 := ha.2
    simp only [decide_eq_true_eq] at h2
    rw [Option.isNone_iff_eq_none] at h2
    rw [h2] at h1
    simp only [Option.isSome_none] at h1
    cases hps : (argPosition a).isSome
    · rw [hps] at h1; cases h1
    · rfl
  obtain ⟨sorted, hsort, hperm, hpw⟩ := sortArgs_spec hposall
  have hsortedvals : ∀ a ∈ sorted, ∃ v, getValueOnly g (some a) = .ok v := by
    intro a ha
    have : a ∈ posArgsOf anodes := hperm.mem_iff.mp ha
    unfold posArgsOf at this
    rw [List.mem_filter] at this
    exact hvals a this.1
  obtain ⟨vals, hmv, hvalsf2⟩ := mapValues_spec hsortedvals
  refine ⟨sorted, vals, kwpairs, ?_, hperm, hpw, hvalsf2, hkwf2⟩
  unfold getArgumentsFromCallNode
  simp only [hnode]
  simp only [hcol, Bind.bind, Except.bind, List.nil_append, hsort, hmv]
  rfl

/-- Witness for C5: the universal part applied to the concrete example
graph. -/
theorem get_arguments_partition_witness :
    ∃ sorted vals kwpairs,
      getArgumentsFromCallNode argGraph callAbc = .ok (vals, kwpairs) ∧
      sorted.Perm (posArgsOf [argPos1, argPos0, argKw]) ∧
      sorted.Pairwise (fun a b => (argPosition a).getD 0 ≤ (argPosition b).getD 0) ∧
      List.Forall₂ (fun a v => getValueOnly argGraph (some a) = .ok v) sorted vals ∧
      List.Forall₂ (fun a p =>
          keywordOf a = some p.1 ∧ getValueOnly argGraph (some a) = .ok p.2)
        (kwArgsOf [argPos1, argPos0, argKw]) kwpairs :=
  get_arguments_partition.1 argGraph callAbc "f" none none [1, 2, 3] none none
    [argPos1, argPos0, argKw] rfl
    (List.Forall₂.cons (by rfl) (List.Forall₂.cons (by rfl)
      (List.Forall₂.cons (by rfl) List.Forall₂.nil)))
    (by decide) (by decide) (fun a ha => by
      fin_cases ha
      · exact ⟨some (.vInt 5), by rfl⟩
      · exact ⟨some (.vInt 7), by rfl⟩
      · exact ⟨some (.vInt 1), by rfl⟩)
    (by decide)

/-! ### Line-number ordering edges (C6) -/

/-- C6.  Every line-number ordering edge joins two call nodes of the graph
ordered by their source lines and is only added when no edge between the
two existed in either direction; in particular, the two calls at lines 3
and 5 descending from the same data source receive exactly one new edge
from the line-3 call to the line-5 call, and when a reverse edge already
exists no edge is added at all. -/
theorem line_number_edge_derivation :
    (∀ (nodes : List Node) (L : List (Nat × Nat)), lineEdges nodes = .ok L →
      ∀ p ∈ L, callLineLe nodes p.1 p.2 ∧
        p ∉ refEdges nodes ∧ (p.2, p.1) ∉ refEdges nodes) ∧
    lineEdges lineNodes = .ok [(3, 5)] ∧
    (∃ g, mkGraph lineNodes scA = .ok g ∧ g.edges = refEdges lineNodes ++ [(3, 5)]) ∧
    lineEdges lineNodesR = .ok [] ∧
    (∃ g, mkGraph lineNodesR scA = .ok g ∧ g.edges = refEdges lineNodesR) := by
  refine ⟨?_, by rfl, ⟨_, by rfl, by rfl⟩, by rfl, ⟨_, by rfl, by rfl⟩⟩
  intro nodes L h p hp
  unfold lineEdges at h
  exact lineEdgesAux_sound h p hp

/-- Witness for C6: the universal conjunct applied to the first concrete
scenario's emitted edge (3, 5). -/
theorem line_number_edge_derivation_witness :
    callLineLe lineNodes 3 5 ∧
    (3, 5) ∉ refEdges lineNodes ∧ (5, 3) ∉ refEdges lineNodes := by
  have h := line_number_edge_derivation.1 lineNodes [(3, 5)]
    line_number_edge_derivation.2.1 (3, 5) (by simp)
  exact ⟨h.1, h.2.1, h.2.2⟩

/-! ### Execution-context lifecycle (C7) -/

/-- C7.  The Idle-Active-Idle lifecycle is enforced: `set_context` raises
the re-entrancy error whenever a context is already active, and
`get_context` and `teardown_context` raise the no-active-context error
whenever no context is active. -/
theorem context_lifecycle :
    (∀ (isMut : Value → Bool) (ex : Executor) (varsOpt : Option (List (String × Nat)))
        (node : ContextCallNode) (s : CtxState), s.current.isSome →
        setContext isMut ex varsOpt node s = .error .ctxAlreadySet) ∧
    (∀ s : CtxState, s.current = none → getContext s = .error .ctxNotSet) ∧
    (∀ (isMut : Value → Bool) (s : CtxState) (res : GlobalsDictResult),
        s.current = none → teardownContext isMut s res = .error .ctxNotSet) := by
  refine ⟨?_, ?_, ?_⟩
  · intro _ _ _ _ s h
    unfold setContext
    rw [if_pos h]
  · intro s h
    unfold getContext
    rw [h]
  · intro _ s res h
    unfold teardownContext
    rw [h]

/-- Witness for C7: the three lifecycle errors on concrete states — the
active state rejects re-activation, the idle state rejects queries and
teardown. -/
theorem context_lifecycle_witness :
    setContext mutStr exeA none ctxNode ctxActive = .error .ctxAlreadySet ∧
    getContext CtxState.idle = .error .ctxNotSet ∧
    teardownContext mutStr CtxState.idle ⟨[], []⟩ = .error .ctxNotSet :=
  ⟨context_lifecycle.1 mutStr exeA none ctxNode ctxActive (by decide),
   context_lifecycle.2.1 CtxState.idle rfl,
   context_lifecycle.2.2 mutStr CtxState.idle ⟨[], []⟩ rfl⟩

/-! ### Side-effect inference (C8, C9) -/

theorem setContext_ok_shape {isMut : Value → Bool} {ex : Executor}
    {varsOpt : Option (List (String × Nat))} {node : ContextCallNode}
    {s0 s1 : CtxState}
    (h : setContext isMut ex varsOpt node s0 = .ok s1) :
    ∃ inputGlobals, resolveInputs ex (chooseInputIds varsOpt node) = .ok inputGlobals ∧
      s1 = ⟨some ⟨node, chooseInputIds varsOpt node,
            inputGlobals.map (fun p => (p.1, isMut p.2)), []⟩, some inputGlobals⟩ := by
  unfold setContext at h
  split at h
  · cases h
  · split at h
    · cases h
    · rcases hr : resolveInputs ex (chooseInputIds varsOpt node) with e | inputGlobals <;>
        rw [hr] at h
      · cases h
      · cases h
        exact ⟨inputGlobals, rfl, rfl⟩

theorem teardown_ok_shape {isMut : Value → Bool} {s1 s2 : CtxState}
    {res : GlobalsDictResult} {result : ContextResult}
    (h : teardownContext isMut s1 res = .ok (result, s2)) :
    ∃ ctx se, s1.current = some ctx ∧ computeSideEffects isMut ctx res = .ok se ∧
      result = ⟨res.addedOrModified, ctx.sideEffects ++ se⟩ ∧ s2 = CtxState.idle := by
  unfold teardownContext at h
  rcases hc : s1.current with _ | ctx <;> rw [hc] at h
  · cases h
  · rcases hse : computeSideEffects isMut ctx res with e | se <;>
      simp only [hse, Bind.bind, Except.bind] at h
    · cases h
    · simp only [pure, Except.pure] at h
      cases h
      exact ⟨ctx, se, rfl, hse, rfl, rfl⟩

theorem computeSideEffects_shape {isMut : Value → Bool} {ctx : ExecutionContext}
    {res : GlobalsDictResult} {se : List SideEffect}
    (h : computeSideEffects isMut ctx res = .ok se) :
    ∃ minputs, mutableInputs ctx res.accessedInputs = .ok minputs ∧
      se = (if res.addedOrModified.isEmpty && res.accessedInputs.isEmpty then []
            else [SideEffect.accessedGlobals res.accessedInputs
              (res.addedOrModified.map (fun p => p.1))]) ++
        minputs.map SideEffect.mutatedNode ++
        (if (minputs ++ (res.addedOrModified.filter (fun p => isMut p.2)).map
              (fun p => ExecutorPointer.byVar p.1)).length > 1
         then [SideEffect.viewOfNodes (minputs ++
            (res.addedOrModified.filter (fun p => isMut p.2)).map
              (fun p => ExecutorPointer.byVar p.1))]
         else []) := by
  unfold computeSideEffects at h
  rcases hm : mutableInputs ctx res.accessedInputs with e | minputs <;>
    simp only [hm, Bind.bind, Except.bind] at h
  · cases h
  · simp only [pure, Except.pure] at h
    cases h
    exact ⟨minputs, rfl, rfl⟩

theorem mutableInputs_spec {ctx : ExecutionContext} :
    ∀ {names : List String} {l : List ExecutorPointer},
      mutableInputs ctx names = .ok l →
      l = names.filterMap (fun name =>
        match slookup ctx.inputGlobalsMutable name with
        | some true => (slookup ctx.inputNodeIds name).map
            (fun i => ExecutorPointer.byId i)
        | _ => none) := by
  intro names
  induction names with
  | nil =>
    intro l h
    rw [mutableInputs] at h
    cases h
    rfl
  | cons name rest ih =>
    intro l h
    rw [mutableInputs] at h
    rcases hm : slookup ctx.inputGlobalsMutable name with _ | m <;> rw [hm] at h
    · cases h
    · rcases m with _ | _
      · simp only [Bool.false_eq_true, if_false] at h
        rw [List.filterMap_cons]
        simp only [hm]
        exact ih h
      · simp only [if_true] at h
        rcases hi : slookup ctx.inputNodeIds name with _ | i <;> rw [hi] at h
        · cases h
        · rcases ht : mutableInputs ctx rest with e | tail <;>
            simp only [ht, Bind.bind, Except.bind] at h
          · cases h
          · simp only [pure, Except.pure] at h
            cases h
            rw [List.filterMap_cons]
            simp only [hm, hi, Option.map_some']
            rw [ih ht]

theorem match_map_fuse (ob : Option Bool) (oi : Option Nat) :
    Option.map SideEffect.mutatedNode
      (match ob with
       | some true => Option.map (fun i => ExecutorPointer.byId i) oi
       | _ => none) =
    (match ob with
     | some true =>
        Option.map (fun i => SideEffect.mutatedNode (ExecutorPointer.byId i)) oi
     | _ => none) := by
  rcases ob with _ | b
  · rfl
  · rcases b with _ | _
    · rfl
    · rw [Option.map_map]
      rfl

theorem filter_mutated_shape {A M V : List SideEffect}
    (hA : ∀ y ∈ A, isMutatedRecord y = false)
    (hM : ∀ y ∈ M, isMutatedRecord y = true)
    (hV : ∀ y ∈ V, isMutatedRecord y = false) :
    (A ++ M ++ V).filter isMutatedRecord = M := by
  rw [List.filter_append, List.filter_append]
  rw [List.filter_eq_nil_iff.mpr (fun a ha => by rw [hA a ha]; simp)]
  rw [List.filter_eq_self.mpr (fun a ha => hM a ha)]
  rw [List.filter_eq_nil_iff.mpr (fun a ha => by rw [hV a ha]; simp)]
  simp

/-- C8.  After an activation snapshotting the inputs through the executor
and a teardown reporting the accessed and added-or-modified names, the
mutated-node records in the returned side-effect list are exactly one per
accessed input name whose snapshotted value the mutability oracle
classified mutable, each carrying that input's original node id; accessed
immutable inputs and unread inputs contribute none. -/
theorem mutated_node_records (isMut : Value → Bool) (ex : Executor)
    (varsOpt : Option (List (String × Nat))) (node : ContextCallNode)
    (s0 s1 s2 : CtxState) (res : GlobalsDictResult) (result : ContextResult)
    (hset : setContext isMut ex varsOpt node s0 = .ok s1)
    (htear : teardownContext isMut s1 res = .ok (result, s2)) :
    ∃ inputGlobals, resolveInputs ex (chooseInputIds varsOpt node) = .ok inputGlobals ∧
      result.sideEffects.filter isMutatedRecord =
        res.accessedInputs.filterMap (fun name =>
          match slookup (inputGlobals.map (fun p => (p.1, isMut p.2))) name with
          | some true => (slookup (chooseInputIds varsOpt node) name).map
              (fun i => SideEffect.mutatedNode (.byId i))
          | _ => none) := by
  obtain ⟨inputGlobals, hres, hs1⟩ := setContext_ok_shape hset
  obtain ⟨ctx, se, hcur, hcse, hresult, _⟩ := teardown_ok_shape htear
  subst hs1
  have hctx : ctx = ⟨node, chooseInputIds varsOpt node,
      inputGlobals.map (fun p => (p.1, isMut p.2)), []⟩ := by
    injection hcur with h1
    exact h1.symm
  subst hctx
  obtain ⟨minputs, hmin, hse⟩ := computeSideEffects_shape hcse
  refine ⟨inputGlobals, hres, ?_⟩
  rw [hresult]
  show (([] : List SideEffect) ++ se).filter isMutatedRecord = _
  rw [List.nil_append, hse]
  rw [filter_mutated_shape
    (by intro y hy; split at hy
        · cases hy
        · rw [List.mem_singleton] at hy; subst hy; rfl)
    (by intro y hy
        rw [List.mem_map] at hy
        obtain ⟨p, _, rfl⟩ := hy
        rfl)
    (by intro y hy; split at hy
        · rw [List.mem_singleton] at hy; subst hy; rfl
        · cases hy)]
  rw [mutableInputs_spec hmin, List.map_filterMap]
  dsimp only
  refine List.filterMap_congr ?_
  intro name _
  exact match_map_fuse _ _

/-- Witness for C8: the pipeline on a mutable string input x (node 7), an
immutable integer input z (node 8), both read, with one added binding. -/
theorem mutated_node_records_witness :
    ∃ inputGlobals,
      resolveInputs exeA (chooseInputIds (some [("x", 7), ("z", 8)]) ctxNode) =
        .ok inputGlobals ∧
      (ContextResult.mk [("y", .vStr "ml")]
          [.accessedGlobals ["x", "z"] ["y"], .mutatedNode (.byId 7),
           .viewOfNodes [.byId 7, .byVar "y"]]).sideEffects.filter isMutatedRecord =
        (GlobalsDictResult.mk ["x", "z"] [("y", .vStr "ml")]).accessedInputs.filterMap
          (fun name =>
            match slookup (inputGlobals.map (fun p => (p.1, mutStr p.2))) name with
            | some true => (slookup (chooseInputIds (some [("x", 7), ("z", 8)]) ctxNode)
                name).map (fun i => SideEffect.mutatedNode (.byId i))
            | _ => none) :=
  mutated_node_records mutStr exeA (some [("x", 7), ("z", 8)]) ctxNode
    CtxState.idle
    ⟨some ⟨ctxNode, [("x", 7), ("z", 8)], [("x", true), ("z", false)], []⟩,
      some [("x", .vStr "frame"), ("z", .vInt 3)]⟩
    CtxState.idle
    ⟨["x", "z"], [("y", .vStr "ml")]⟩
    ⟨[("y", .vStr "ml")],
      [.accessedGlobals ["x", "z"] ["y"], .mutatedNode (.byId 7),
       .viewOfNodes [.byId 7, .byVar "y"]]⟩
    (by rfl) (by rfl)

theorem last_of_shape {α : Type} (P : α → Bool) :
    ∀ (pre l1 l2 : List α) (x z : α),
      (∀ y ∈ pre, P y = false) → P z = true →
      pre ++ [x] = l1 ++ z :: l2 → l2 = [] := by
  intro pre
  induction pre with
  | nil =>
    intro l1 l2 x z _ _ heq
    rcases l1 with _ | ⟨b, l1x⟩
    · rw [List.nil_append] at heq
      injection heq with _ h2
      exact h2.symm
    · rw [List.nil_append] at heq
      injection heq with _ h2
      rcases l1x with _ | ⟨c, l1y⟩
      · cases h2
      · cases h2
  | cons a pre2 ih =>
    intro l1 l2 x z hpre hz heq
    rcases l1 with _ | ⟨b, l1x⟩
    · rw [List.nil_append] at heq
      injection heq with h1 _
      rw [← h1] at hz
      rw [hpre a (by simp)] at hz
      cases hz
    · injection heq with _ h2
      exact ih l1x l2 x z (fun y hy => hpre y (by simp [hy])) hz h2

/-- C9 counterexample.  Two distinct input names bound to the same node id,
both read and both mutable, make the code emit a view group `[ID 7, ID 7]`
(the candidate list has two entries) although the candidate *set* has a
single member — refuting the emitted-iff-the-set-has-two-members reading. -/
theorem view_group_set_counterexample :
    setContext mutStr exeA (some [("x", 7), ("y", 7)]) ctxNode CtxState.idle =
      .ok ⟨some ⟨ctxNode, [("x", 7), ("y", 7)], [("x", true), ("y", true)], []⟩,
           some [("x", .vStr "frame"), ("y", .vStr "frame")]⟩ ∧
    teardownContext mutStr
      ⟨some ⟨ctxNode, [("x", 7), ("y", 7)], [("x", true), ("y", true)], []⟩,
       some [("x", .vStr "frame"), ("y", .vStr "frame")]⟩
      ⟨["x", "y"], []⟩ =
      .ok (⟨[], [.accessedGlobals ["x", "y"] [], .mutatedNode (.byId 7),
              .mutatedNode (.byId 7), .viewOfNodes [.byId 7, .byId 7]]⟩,
           CtxState.idle) ∧
    SideEffect.viewOfNodes [.byId 7, .byId 7] ∈
      [SideEffect.accessedGlobals ["x", "y"] [], .mutatedNode (.byId 7),
       .mutatedNode (.byId 7), .viewOfNodes [.byId 7, .byId 7]] ∧
    ([ExecutorPointer.byId 7, ExecutorPointer.byId 7].dedup).length = 1 :=
  ⟨by rfl, by rfl, by simp, by rfl⟩

/-- C9 as amended.  After an activation and a teardown, with the candidate
LIST — one pointer per mutable read input (with multiplicity) followed by
one per added-or-modified output whose new value is mutable — a view group
is emitted iff that list has two or more entries, the emitted record
contains exactly that list, and it is the final record of the returned
side-effect list, hence after every mutated-node record. -/
theorem view_group_amended (isMut : Value → Bool) (ex : Executor)
    (varsOpt : Option (List (String × Nat))) (node : ContextCallNode)
    (s0 s1 s2 : CtxState) (res : GlobalsDictResult) (result : ContextResult)
    (hset : setContext isMut ex varsOpt node s0 = .ok s1)
    (htear : teardownContext isMut s1 res = .ok (result, s2)) :
    ∃ ctx minputs candidates,
      s1.current = some ctx ∧
      mutableInputs ctx res.accessedInputs = .ok minputs ∧
      candidates = minputs ++ (res.addedOrModified.filter (fun p => isMut p.2)).map
        (fun p => ExecutorPointer.byVar p.1) ∧
      ((∃ ps, SideEffect.viewOfNodes ps ∈ result.sideEffects) ↔ 2 ≤ candidates.length) ∧
      (∀ ps, SideEffect.viewOfNodes ps ∈ result.sideEffects → ps = candidates) ∧
      (∀ l1 ps l2, result.sideEffects = l1 ++ SideEffect.viewOfNodes ps :: l2 →
        l2 = []) := by
  obtain ⟨inputGlobals, hres, hs1⟩ := setContext_ok_shape hset
  obtain ⟨ctx, se, hcur, hcse, hresult, _⟩ := teardown_ok_shape htear
  obtain ⟨minputs, hmin, hse⟩ := computeSideEffects_shape hcse
  have hctxse : ctx.sideEffects = [] := by
    rw [hs1] at hcur
    injection hcur with h1
    rw [← h1]
  have hlist : result.sideEffects =
      (if res.addedOrModified.isEmpty && res.accessedInputs.isEmpty then []
       else [SideEffect.accessedGlobals res.accessedInputs
         (res.addedOrModified.map (fun p => p.1))]) ++
      minputs.map SideEffect.mutatedNode ++
      (if (minputs ++ (res.addedOrModified.filter (fun p => isMut p.2)).map
            (fun p => ExecutorPointer.byVar p.1)).length > 1
       then [SideEffect.viewOfNodes (minputs ++
          (res.addedOrModified.filter (fun p => isMut p.2)).map
            (fun p => ExecutorPointer.byVar p.1))]
       else []) := by
    rw [hresult]
    show ctx.sideEffects ++ se = _
    rw [hctxse, List.nil_append, hse]
  have hnoviewAM : ∀ y ∈ (if res.addedOrModified.isEmpty && res.accessedInputs.isEmpty
        then ([] : List SideEffect)
        else [SideEffect.accessedGlobals res.accessedInputs
          (res.addedOrModified.map (fun p => p.1))]) ++
      minputs.map SideEffect.mutatedNode, isViewRecord y = false := by
    intro y hy
    rcases List.mem_append.mp hy with hag | hmn
    · split at hag
      · cases hag
      · rw [List.mem_singleton] at hag
        subst hag
        rfl
    · rw [List.mem_map] at hmn
      obtain ⟨p, _, rfl⟩ := hmn
      rfl
  refine ⟨ctx, minputs,
    minputs ++ (res.addedOrModified.filter (fun p => isMut p.2)).map
      (fun p => ExecutorPointer.byVar p.1), hcur, hmin, rfl, ?_, ?_, ?_⟩
  · constructor
    · rintro ⟨ps, hps⟩
      rw [hlist] at hps
      rcases List.mem_append.mp hps with hin | hin
      · have := hnoviewAM _ hin
        cases this
      · split at hin
        · next hgt => omega
        · cases hin
    · intro hlen
      refine ⟨minputs ++ (res.addedOrModified.filter (fun p => isMut p.2)).map
        (fun p => ExecutorPointer.byVar p.1), ?_⟩
      rw [hlist]
      refine List.mem_append.mpr (Or.inr ?_)
      rw [if_pos (by omega)]
      exact List.mem_singleton.mpr rfl
  · intro ps hps
    rw [hlist] at hps
    rcases List.mem_append.mp hps with hin | hin
    · have := hnoviewAM _ hin
      cases this
    · split at hin
      · rw [List.mem_singleton] at hin
        injection hin with h1
      · cases hin
  · intro l1 ps l2 heq
    rw [hlist] at heq
    by_cases hgt : (minputs ++ (res.addedOrModified.filter (fun p => isMut p.2)).map
        (fun p => ExecutorPointer.byVar p.1)).length > 1
    · rw [if_pos hgt] at heq
      exact last_of_shape isViewRecord _ l1 l2 _ (SideEffect.viewOfNodes ps)
        hnoviewAM rfl heq
    · rw [if_neg hgt] at heq
      exfalso
      have hmem : SideEffect.viewOfNodes ps ∈ l1 ++ SideEffect.viewOfNodes ps :: l2 := by
        simp
      rw [← heq, List.append_nil] at hmem
      have := hnoviewAM _ hmem
      cases this

/-- Witness for the amended C9: the pipeline on a mutable read input x
(node 7) and a mutable added binding y — the candidate list has two
entries and the view group closes the side-effect list. -/
theorem view_group_amended_witness :
    ∃ ctx minputs candidates,
      (CtxState.mk (some ⟨ctxNode, [("x", 7), ("z", 8)], [("x", true), ("z", false)], []⟩)
          (some [("x", .vStr "frame"), ("z", .vInt 3)])).current = some ctx ∧
      mutableInputs ctx (GlobalsDictResult.mk ["x", "z"] [("y", .vStr "ml")]).accessedInputs =
        .ok minputs ∧
      candidates = minputs ++
        ((GlobalsDictResult.mk ["x", "z"] [("y", .vStr "ml")]).addedOrModified.filter
          (fun p => mutStr p.2)).map (fun p => ExecutorPointer.byVar p.1) ∧
      ((∃ ps, SideEffect.viewOfNodes ps ∈
          (ContextResult.mk [("y", .vStr "ml")]
            [.accessedGlobals ["x", "z"] ["y"], .mutatedNode (.byId 7),
             .viewOfNodes [.byId 7, .byVar "y"]]).sideEffects) ↔ 2 ≤ candidates.length) ∧
      (∀ ps, SideEffect.viewOfNodes ps ∈
          (ContextResult.mk [("y", .vStr "ml")]
            [.accessedGlobals ["x", "z"] ["y"], .mutatedNode (.byId 7),
             .viewOfNodes [.byId 7, .byVar "y"]]).sideEffects → ps = candidates) ∧
      (∀ l1 ps l2,
        (ContextResult.mk [("y", .vStr "ml")]
          [.accessedGlobals ["x", "z"] ["y"], .mutatedNode (.byId 7),
           .viewOfNodes [.byId 7, .byVar "y"]]).sideEffects =
            l1 ++ SideEffect.viewOfNodes ps :: l2 → l2 = []) :=
  view_group_amended mutStr exeA (some [("x", 7), ("z", 8)]) ctxNode
    CtxState.idle
    ⟨some ⟨ctxNode, [("x", 7), ("z", 8)], [("x", true), ("z", false)], []⟩,
      some [("x", .vStr "frame"), ("z", .vInt 3)]⟩
    CtxState.idle
    ⟨["x", "z"], [("y", .vStr "ml")]⟩
    ⟨[("y", .vStr "ml")],
      [.accessedGlobals ["x", "z"] ["y"], .mutatedNode (.byId 7),
       .viewOfNodes [.byId 7, .byVar "y"]]⟩
    (by rfl) (by rfl)

/-! ### Graph equality as digraph isomorphism (C10) -/

/-- C10.  `Graph.__eq__` compares nothing but the digraphs: replacing the
node list and session context of a graph while keeping its vertex and edge
lists leaves every equality verdict unchanged, and two constructed graphs
with disjoint ids, different node variants and payloads, and different
session contexts compare equal because their digraphs are isomorphic —
while a structurally different graph compares unequal. -/
theorem graph_eq_ignores_content :
    (∀ g1 g2 k : Graph, g1.vertices = g2.vertices → g1.edges = g2.edges →
      graphEq g1 k = graphEq g2 k ∧ graphEq k g1 = graphEq k g2) ∧
    mkGraph isoNodes1 scA = .ok isoGraph1 ∧
    mkGraph isoNodes2 scB = .ok isoGraph2 ∧
    mkGraph isoNodes3 scA = .ok isoGraph3 ∧
    graphEq isoGraph1 isoGraph2 = true ∧
    graphEq isoGraph1 isoGraph3 = false ∧
    (∀ n1 ∈ isoGraph1.nodes, ∀ n2 ∈ isoGraph2.nodes,
      n1.common.id ≠ n2.common.id ∧ n1.data ≠ n2.data) ∧
    isoGraph1.sessionContext ≠ isoGraph2.sessionContext := by
  refine ⟨?_, by rfl, by rfl, by rfl, by rfl, by rfl, by decide, by decide⟩
  intro g1 g2 k h1 h2
  unfold graphEq
  rw [h1, h2]
  exact ⟨rfl, rfl⟩

/-- Witness for C10: the content-independence conjunct applied to the two
isomorphic example graphs (same digraph, different payloads). -/
theorem graph_eq_ignores_content_witness :
    graphEq isoGraph1 isoGraph2 = graphEq ⟨isoNodes2, scB, [10, 11], [(10, 11)]⟩ isoGraph2 ∧
    graphEq isoGraph2 isoGraph1 = graphEq isoGraph2 ⟨isoNodes2, scB, [10, 11], [(10, 11)]⟩ :=
  graph_eq_ignores_content.1 isoGraph1 ⟨isoNodes2, scB, [10, 11], [(10, 11)]⟩ isoGraph2
    rfl rfl

end Linea
